import Mathlib

/-!
Verification of the PMD rule-catalogue pipeline: the XML rule extractor and
catalogue builder (convert script), the tier annotator (add_tiers script) and
the viewer's filter/pagination logic (app script).

The JavaScript source is shallowly embedded over `List Char` / `String`.
The regex-based extraction helpers are modelled as explicit left-to-right
scanners with the exact backtracking behaviour of the JS regexes used
(lazy bodies stop at the first closing tag, `\s+` runs are maximal before a
literal, alternations are tried left to right).  `localeCompare` on the ASCII
identifiers involved is modelled as comparison in the linear order on
`String`.  JS numbers arising here are integers and are modelled as `Int`.
-/

namespace PmdRules

/-- JS whitespace class (the `\s` regex class and `String.prototype.trim`),
restricted to the code points that can occur in the repository's data. -/
def isJsWs (c : Char) : Bool :=
  c == ' ' || c == '\t' || c == '\n' || c == '\r' || c == '\x0b' || c == '\x0c' || c == '\u00A0'

/-- Case-insensitive character comparison (ASCII, as in the `i` regex flag). -/
def lowerEq (a b : Char) : Bool :=
  a.toLower == b.toLower

/-- Does `s` start with the literal `pat` (case-sensitive)? -/
def listStartsWith : List Char → List Char → Bool
  | [], _ => true
  | _ :: _, [] => false
  | p :: ps, c :: cs => p == c && listStartsWith ps cs

/-- Does `s` start with the literal `pat`, compared case-insensitively? -/
def listStartsWithCI : List Char → List Char → Bool
  | [], _ => true
  | _ :: _, [] => false
  | p :: ps, c :: cs => lowerEq p c && listStartsWithCI ps cs

/-- Split at the first occurrence of the character `q`: returns the characters
before it and the remainder after it, or `none` if `q` does not occur.
This models a lazy `([^q]*?)q` (equivalently greedy `([^q]*)q`) capture. -/
def breakAtChar (q : Char) : List Char → Option (List Char × List Char)
  | [] => none
  | c :: cs =>
    if c == q then some ([], cs)
    else (breakAtChar q cs).map (fun r => (c :: r.1, r.2))

/-- Split at the first occurrence of the literal substring `pat`
(case-sensitive): the part before the match and the remainder after it. -/
def splitAtSub (pat : List Char) : List Char → Option (List Char × List Char)
  | [] => if pat == [] then some ([], []) else none
  | c :: cs =>
    if listStartsWith pat (c :: cs) then some ([], (c :: cs).drop pat.length)
    else (splitAtSub pat cs).map (fun r => (c :: r.1, r.2))

/-- Split at the first case-insensitive occurrence of `pat`. -/
def splitAtSubCI (pat : List Char) : List Char → Option (List Char × List Char)
  | [] => if pat == [] then some ([], []) else none
  | c :: cs =>
    if listStartsWithCI pat (c :: cs) then some ([], (c :: cs).drop pat.length)
    else (splitAtSubCI pat cs).map (fun r => (c :: r.1, r.2))

/-- Fuel-indexed core of global literal replacement; the fuel is an upper
bound on the input length and every step consumes at least one character. -/
def replaceAllGo (pat repl : List Char) : Nat → List Char → List Char
  | 0, s => s
  | _, [] => []
  | fuel + 1, c :: cs =>
    if pat ≠ [] ∧ listStartsWith pat (c :: cs) then
      repl ++ replaceAllGo pat repl fuel ((c :: cs).drop pat.length)
    else
      c :: replaceAllGo pat repl fuel cs

/-- Global replacement of the non-empty literal `pat` by `repl`, scanning left
to right without rescanning replacements (JS `String.prototype.replace` with a
`g` regex of a literal pattern). -/
def replaceAllSub (pat repl : List Char) (s : List Char) : List Char :=
  replaceAllGo pat repl (s.length + 1) s

/-- JS `trim`: drop leading and trailing whitespace. -/
def jsTrim (s : List Char) : List Char :=
  ((s.dropWhile isJsWs).reverse.dropWhile isJsWs).reverse

/-- `stripCdata`: remove all literal CDATA open markers, then all close
markers (two sequential global replacements, as in the source). -/
def stripCdata (s : List Char) : List Char :=
  replaceAllSub "]]>".data [] (replaceAllSub "<![CDATA[".data [] s)

/-- Try a pattern at every position, left to right, returning the first
success: the semantics of an unanchored JS regex match. -/
def scanFirst (f : List Char → Option α) : List Char → Option α
  | [] => none
  | c :: cs =>
    match f (c :: cs) with
    | some r => some r
    | none => scanFirst f cs

/-- Attempt the pattern `NAME\s*=\s*"([^"]*)"` (case-insensitive, `NAME` the
pre-supplied attribute name) at the start of `s`. -/
def tryAttrAt (nm : List Char) (s : List Char) : Option (List Char) :=
  if listStartsWithCI nm s then
    let t1 := (s.drop nm.length).dropWhile isJsWs
    match t1 with
    | '=' :: t2 =>
      (match t2.dropWhile isJsWs with
       | '"' :: t4 => (breakAtChar '"' t4).map (fun r => r.1)
       | _ => none)
    | _ => none
  else none

/-- `extractAttr`: first value of `name="..."` in an attribute string,
case-insensitive; empty string when absent. -/
def extractAttr (attrStr : String) (nm : String) : String :=
  ⟨(scanFirst (tryAttrAt nm.data) attrStr.data).getD []⟩

/-- Attempt `<TAG[^>]*>([\s\S]*?)</TAG>` (case-insensitive) at the start of
`s`, returning the raw inner text. -/
def tryElemAt (tag : List Char) (s : List Char) : Option (List Char) :=
  if listStartsWithCI ('<' :: tag) s then
    match breakAtChar '>' (s.drop (tag.length + 1)) with
    | some (_, rest) =>
      (match splitAtSubCI ('<' :: '/' :: (tag ++ ['>'])) rest with
       | some (body, _) => some body
       | none => none)
    | none => none
  else none

/-- `extractFirstElement`: trimmed, CDATA-stripped inner text of the first
`<tag ...>...</tag>` occurrence; empty string when there is none. -/
def extractFirstElement (xml : String) (tag : String) : String :=
  match scanFirst (tryElemAt tag.data) xml.data with
  | some body => ⟨jsTrim (stripCdata body)⟩
  | none => ""

/-- One step of the global `<example>([\s\S]*?)</example>` scan. -/
def exampleScan : Nat → List Char → List (List Char)
  | 0, _ => []
  | fuel + 1, s =>
    match splitAtSubCI "<example>".data s with
    | none => []
    | some (_, rest) =>
      match splitAtSubCI "</example>".data rest with
      | none => []
      | some (body, rest2) => body :: exampleScan fuel rest2

/-- `extractExamples`: all example bodies in document order, CDATA-stripped
and trimmed, empty results skipped. -/
def extractExamples (xml : String) : List String :=
  (((exampleScan (xml.data.length + 1) xml.data).map
      (fun b => jsTrim (stripCdata b))).filter (fun b => b ≠ [])).map (fun b => (⟨b⟩ : String))

/-- A property descriptor as pushed by `extractProperties`. -/
structure PropDesc where
  name : String
  defaultValue : String
  description : String
deriving DecidableEq

/-- The data of one match of the property regex
`<property\s+name="([^"]*)"[^>]*(?:\/>|>([\s\S]*?)<\/property>)`:
the whole match `m0`, capture 1 (`nameV`) and capture 2 (`m2`,
`none` when the self-closing alternative matched). -/
structure PropMatch where
  m0 : List Char
  nameV : List Char
  m2 : Option (List Char)
deriving DecidableEq

/-- Attempt the property regex at the start of `s`.  `\s+` is a maximal run
followed by the literal `name="` (so `name` must be the first attribute);
after the greedy `[^>]*`, the `\/>` alternative only succeeds via
backtracking when no later `</property>` exists and the character before the
`>` is `/` — a block match up to the first subsequent `</property>` is
preferred, exactly as the JS engine behaves. -/
def tryPropAt (s : List Char) : Option (PropMatch × List Char) :=
  if listStartsWithCI "<property".data s then
    match s.drop 9 with
    | [] => none
    | c :: _ =>
      if isJsWs c then
        let t1 := (s.drop 9).dropWhile isJsWs
        if listStartsWithCI "name=\"".data t1 then
          match breakAtChar '"' (t1.drop 6) with
          | none => none
          | some (nv, t3) =>
            match breakAtChar '>' t3 with
            | none => none
            | some (mid, t4) =>
              match splitAtSubCI "</property>".data t4 with
              | some (body, rest) =>
                some ({ m0 := s.take (s.length - rest.length), nameV := nv,
                        m2 := some body }, rest)
              | none =>
                if mid.getLast? = some '/' then
                  some ({ m0 := s.take (s.length - t4.length), nameV := nv, m2 := none }, t4)
                else none
        else none
      else none
  else none

/-- The global property scan: repeated leftmost matches, resuming after each
match. -/
def propScan : Nat → List Char → List PropMatch
  | 0, _ => []
  | fuel + 1, s =>
    match scanFirst tryPropAt s with
    | none => []
    | some (pm, rest) => pm :: propScan fuel rest

/-- The fallback default value of a property match: the first
`<value>...</value>` element of a non-empty capture 2, else empty. -/
def propFallbackVal (pm : PropMatch) : List Char :=
  match pm.m2 with
  | some b =>
    if b ≠ [] then
      match splitAtSubCI "<value>".data b with
      | some (_, r) =>
        (match splitAtSubCI "</value>".data r with
         | some (v, _) => jsTrim (stripCdata v)
         | none => [])
      | none => []
    else []
  | none => []

/-- The default value chosen for one property match: a `value="..."`
attribute match anywhere in the whole match if one exists, else the
fallback from the nested `<value>` element. -/
def propDefaultVal (pm : PropMatch) : List Char :=
  match splitAtSub "value=\"".data pm.m0 with
  | some (_, r) =>
    (match breakAtChar '"' r with
     | some (v, _) => v
     | none => propFallbackVal pm)
  | none => propFallbackVal pm

/-- The description chosen for one property match: a `description="..."`
match anywhere in the whole match, else empty. -/
def propDescVal (pm : PropMatch) : List Char :=
  match splitAtSub "description=\"".data pm.m0 with
  | some (_, r) =>
    (match breakAtChar '"' r with
     | some (v, _) => v
     | none => [])
  | none => []

/-- `extractProperties`: all property descriptors, skipping names `xpath` and
`version`. -/
def extractProperties (xml : String) : List PropDesc :=
  (propScan (xml.data.length + 1) xml.data).filterMap (fun pm =>
    if (⟨pm.nameV⟩ : String) = "xpath" ∨ (⟨pm.nameV⟩ : String) = "version" then none
    else some { name := ⟨pm.nameV⟩, defaultValue := ⟨propDefaultVal pm⟩,
                description := ⟨propDescVal pm⟩ })

/-- The value added by the tier map: an integer tier or the literal string
`"skip"`. -/
inductive TierVal where
  | num : Int → TierVal
  | str : String → TierVal
deriving DecidableEq

/-- One catalogue record, exactly the object literal pushed by
`parseXmlFile` (the `tier` / `claude_comment` fields are `none` until the
annotator sets them; the three sparse fields are `none` when omitted). -/
structure Rule where
  name : String
  category : String
  categoryName : String
  since : String
  message : String
  ruleClass : String
  externalInfoUrl : String
  description : String
  priority : Int
  examples : List String
  properties : Option (List PropDesc)
  maxLanguageVersion : Option String
  minLanguageVersion : Option String
  tier : Option TierVal
  claude_comment : Option String
deriving DecidableEq

/-- ASCII word character, the JS `\w` class. -/
def isWordChar (c : Char) : Bool :=
  c.isAlpha || c.isDigit || c == '_'

/-- The test `\bref\s*=` over an attribute string (case-sensitive), tracking
whether the previous character is a word character for the `\b` boundary. -/
def hasRefFrom : Bool → List Char → Bool
  | _, [] => false
  | prevW, c :: cs =>
    if !prevW && listStartsWith "ref".data (c :: cs) &&
        (match ((c :: cs).drop 3).dropWhile isJsWs with
         | '=' :: _ => true
         | _ => false) then true
    else hasRefFrom (isWordChar c) cs

/-- Does the attribute string contain a `ref=` assignment (`/\bref\s*=/`)? -/
def hasRefAttr (attrs : List Char) : Bool :=
  hasRefFrom false attrs

/-- Attempt `<rule\s+([^>]*?)>([\s\S]*?)<\/rule>` (case-sensitive) at the
start of `s`: attrs run from after the maximal whitespace run to the first
`>`, the body up to the first `</rule>`.  Returns the captures and the
remainder after the closing tag. -/
def tryRuleOpenAt (s : List Char) : Option ((List Char × List Char) × List Char) :=
  if listStartsWith "<rule".data s then
    match s.drop 5 with
    | [] => none
    | c :: _ =>
      if isJsWs c then
        match breakAtChar '>' ((s.drop 5).dropWhile isJsWs) with
        | some (attrs, t2) =>
          (match splitAtSub "</rule>".data t2 with
           | some (body, rest) => some ((attrs, body), rest)
           | none => none)
        | none => none
      else none
  else none

/-- The global `<rule ...>...</rule>` scan of one document. -/
def ruleScan : Nat → List Char → List (List Char × List Char)
  | 0, _ => []
  | fuel + 1, s =>
    match scanFirst tryRuleOpenAt s with
    | none => []
    | some (ab, rest) => ab :: ruleScan fuel rest

/-- All (attrs, body) capture pairs of the rule regex over a document. -/
def ruleBlocks (xml : String) : List (List Char × List Char) :=
  ruleScan (xml.data.length + 1) xml.data

/-- Decimal digit value of an ASCII digit. -/
def digitVal (c : Char) : Nat :=
  c.toNat - 48

/-- ASCII hexadecimal digit. -/
def isHexDigit (c : Char) : Bool :=
  c.isDigit || ('a' ≤ c && c ≤ 'f') || ('A' ≤ c && c ≤ 'F')

/-- Value of an ASCII hexadecimal digit. -/
def hexVal (c : Char) : Nat :=
  if c.isDigit then c.toNat - 48
  else if 'a' ≤ c && c ≤ 'f' then c.toNat - 87
  else c.toNat - 55

/-- JS `parseInt` with no radix argument: skip leading whitespace, optional
sign, a `0x`/`0X` prefix selects base 16, then the longest digit run; `none`
models `NaN`. -/
def jsParseInt (s : String) : Option Int :=
  let t := s.data.dropWhile isJsWs
  let sign : Int := match t with
    | '-' :: _ => -1
    | _ => 1
  let t1 := match t with
    | '-' :: r => r
    | '+' :: r => r
    | _ => t
  if listStartsWith "0x".data t1 || listStartsWith "0X".data t1 then
    match (t1.drop 2).takeWhile isHexDigit with
    | [] => none
    | ds => some (sign * (ds.foldl (fun a c => a * 16 + hexVal c) 0 : Nat))
  else
    match t1.takeWhile Char.isDigit with
    | [] => none
    | ds => some (sign * (ds.foldl (fun a c => a * 10 + digitVal c) 0 : Nat))

/-- The expression `parseInt(priorityStr) || 3`: 3 when the parse is `NaN`
or yields 0 (both falsy), the parsed value otherwise. -/
def jsPriorityOf (s : String) : Int :=
  match jsParseInt s with
  | none => 3
  | some n => if n = 0 then 3 else n

/-- Substitution of the PMD website placeholder in `externalInfoUrl`. -/
def baseUrlSubst (s : String) : String :=
  ⟨replaceAllSub "$\x7bpmd.website.baseurl\x7d".data
      "https://docs.pmd-code.org/latest".data s.data⟩

/-- The record object pushed for one retained rule block. -/
def mkRule (category catName : String) (attrs body : List Char) : Rule :=
  let maxV := extractAttr ⟨attrs⟩ "maximumLanguageVersion"
  let minV := extractAttr ⟨attrs⟩ "minimumLanguageVersion"
  let props := extractProperties ⟨body⟩
  { name := extractAttr ⟨attrs⟩ "name"
    category := category
    categoryName := catName
    since := extractAttr ⟨attrs⟩ "since"
    message := extractAttr ⟨attrs⟩ "message"
    ruleClass := extractAttr ⟨attrs⟩ "class"
    externalInfoUrl := baseUrlSubst (extractAttr ⟨attrs⟩ "externalInfoUrl")
    description := extractFirstElement ⟨body⟩ "description"
    priority := jsPriorityOf (extractFirstElement ⟨body⟩ "priority")
    examples := extractExamples ⟨body⟩
    properties := if props = [] then none else some props
    maxLanguageVersion := if maxV = "" then none else some maxV
    minLanguageVersion := if minV = "" then none else some minV
    tier := none
    claude_comment := none }

/-- The ruleset display name: first `<ruleset\s+name="([^"]*)"` match, the
category as fallback. -/
def tryRulesetAt (s : List Char) : Option (List Char) :=
  if listStartsWith "<ruleset".data s then
    match s.drop 8 with
    | [] => none
    | c :: _ =>
      if isJsWs c then
        let t1 := (s.drop 8).dropWhile isJsWs
        if listStartsWith "name=\"".data t1 then
          (breakAtChar '"' (t1.drop 6)).map (fun r => r.1)
        else none
      else none
  else none

/-- The localized ruleset name read from the document. -/
def rulesetNameOf (xml category : String) : String :=
  match scanFirst tryRulesetAt xml.data with
  | some nm => ⟨nm⟩
  | none => category

/-- `parseXmlFile` on already-read file text: one record per rule block,
skipping blocks with a `ref=` assignment and blocks with an empty `name`. -/
def parseXmlRules (xml category : String) : List Rule :=
  let catName := rulesetNameOf xml category
  (ruleBlocks xml).filterMap (fun ab =>
    if hasRefAttr ab.1 then none
    else if extractAttr ⟨ab.1⟩ "name" = "" then none
    else some (mkRule category catName ab.1 ab.2))

/-- Decimal digit character. -/
def decDigitChar (n : Nat) : Char :=
  match n with
  | 0 => '0' | 1 => '1' | 2 => '2' | 3 => '3' | 4 => '4'
  | 5 => '5' | 6 => '6' | 7 => '7' | 8 => '8' | 9 => '9'
  | _ => '0'

/-- Decimal digits of a natural number, most significant first. -/
def natDecChars (n : Nat) : List Char :=
  if h : n < 10 then [decDigitChar n]
  else natDecChars (n / 10) ++ [decDigitChar (n % 10)]
termination_by n
decreasing_by exact Nat.div_lt_self (by omega) (by omega)

/-- JS `String(n)` for an integer number. -/
def intDecString (n : Int) : String :=
  if n < 0 then ⟨'-' :: natDecChars (-n).toNat⟩ else ⟨natDecChars n.toNat⟩

/-- `localeCompare`, modelled as comparison in the linear order on
`String` (the identifiers compared in this repository are ASCII). -/
def jsStrCmp (a b : String) : Int :=
  if a < b then -1 else if b < a then 1 else 0

/-- The sort comparator of the catalogue builder. -/
def cmpRule (a b : Rule) : Int :=
  if a.category ≠ b.category then jsStrCmp a.category b.category
  else if a.priority ≠ b.priority then a.priority - b.priority
  else jsStrCmp a.name b.name

/-- Stable insertion of one record into a sorted run (an element moves past
`y` only when the comparator says it is strictly greater). -/
def insertSorted (x : Rule) : List Rule → List Rule
  | [] => [x]
  | y :: ys => if cmpRule x y > 0 then y :: insertSorted x ys else x :: y :: ys

/-- `allRules.sort(comparator)`: JS `Array.prototype.sort` is stable, so any
stable sorting algorithm is a faithful model; insertion sort is used. -/
def sortRules : List Rule → List Rule
  | [] => []
  | x :: xs => insertSorted x (sortRules xs)

/-- Page size of the viewer. -/
def RULES_PER_PAGE : Nat := 20

/-- JS `toLowerCase` (ASCII; the only cased characters in the data). -/
def jsToLower (s : String) : String :=
  ⟨s.data.map Char.toLower⟩

/-- JS `String.prototype.includes`. -/
def jsIncludes (hay needle : String) : Bool :=
  (splitAtSub needle.data hay.data).isSome

/-- The filter predicate of `applyFilters` for one rule. -/
def matchesRule (categories priorities : List String) (searchTerm : String) (r : Rule) : Bool :=
  let matchesCategory := categories.isEmpty || categories.contains r.category
  let matchesPriority := priorities.isEmpty || priorities.contains (intDecString r.priority)
  let matchesSearch := searchTerm == "" ||
    jsIncludes (jsToLower r.name) searchTerm ||
    jsIncludes (jsToLower r.message) searchTerm ||
    jsIncludes (jsToLower r.description) searchTerm ||
    (r.categoryName != "" && jsIncludes (jsToLower r.categoryName) searchTerm)
  matchesCategory && matchesPriority && matchesSearch

/-- `applyFilters`: the search box value is lowercased and trimmed, then the
full rule list is filtered. -/
def applyFilters (rules : List Rule) (categories priorities : List String)
    (searchRaw : String) : List Rule :=
  rules.filter (matchesRule categories priorities ⟨jsTrim (jsToLower searchRaw).data⟩)

/-- The slice of the filtered list shown on `currentPage` (1-based), as
computed by `renderRules`. -/
def pageRules (filteredRules : List Rule) (currentPage : Nat) : List Rule :=
  (filteredRules.drop ((currentPage - 1) * RULES_PER_PAGE)).take RULES_PER_PAGE

/-- One entry of the annotator's lookup table. -/
structure TierInfo where
  tier : TierVal
  claude_comment : String
deriving DecidableEq

/-- Property lookup in the tier table (`TIER_MAP[name]`). -/
def lookupTier (table : List (String × TierInfo)) (n : String) : Option TierInfo :=
  match table with
  | [] => none
  | (k, v) :: rest => if k = n then some v else lookupTier rest n

/-- The in-place mutation of one record: `tier` and `claude_comment` are
overwritten from the table entry. -/
def annotateOne (table : List (String × TierInfo)) (r : Rule) : Rule :=
  match lookupTier table r.name with
  | some ti => { r with tier := some ti.tier, claude_comment := some ti.claude_comment }
  | none => r

/-- Record names with no table entry (`missingFromMap`). -/
def missingFromMap (table : List (String × TierInfo)) (rules : List Rule) : List String :=
  (rules.map Rule.name).filter (fun n => (lookupTier table n).isNone)

/-- The annotator's record-level step: fail when any name is missing from
the table, otherwise overwrite `tier`/`claude_comment` on every record. -/
def annotateRules (table : List (String × TierInfo)) (rules : List Rule) :
    Option (List Rule) :=
  if missingFromMap table rules = [] then some (rules.map (annotateOne table))
  else none

/-- JSON values as produced by the pipeline (strings, integer numbers,
arrays, objects with ordered keys). -/
inductive Json where
  | str : String → Json
  | num : Int → Json
  | arr : List Json → Json
  | obj : List (String × Json) → Json

/-- `JSON.stringify` escaping of one character inside a string literal. -/
def escapeChar (c : Char) : List Char :=
  if c = '"' then ['\\', '"']
  else if c = '\\' then ['\\', '\\']
  else if c = '\n' then ['\\', 'n']
  else if c = '\r' then ['\\', 'r']
  else if c = '\t' then ['\\', 't']
  else if c = '\x08' then ['\\', 'b']
  else if c = '\x0c' then ['\\', 'f']
  else if c.toNat < 32 then
    ['\\', 'u', '0', '0', decDigitChar (c.toNat / 16), hexDigitChar (c.toNat % 16)]
  else [c]
where
  hexDigitChar (n : Nat) : Char :=
    match n with
    | 0 => '0' | 1 => '1' | 2 => '2' | 3 => '3' | 4 => '4'
    | 5 => '5' | 6 => '6' | 7 => '7' | 8 => '8' | 9 => '9'
    | 10 => 'a' | 11 => 'b' | 12 => 'c' | 13 => 'd' | 14 => 'e' | 15 => 'f'
    | _ => '0'

/-- A JSON string literal with quotes and escapes. -/
def renderString (s : String) : List Char :=
  '"' :: (s.data.flatMap escapeChar) ++ ['"']

/-- Indentation: `ind` spaces. -/
def indentChars (ind : Nat) : List Char :=
  List.replicate ind ' '

mutual

/-- `JSON.stringify(v, null, 2)` at nesting indentation `ind`. -/
def renderJson (ind : Nat) : Json → List Char
  | Json.str s => renderString s
  | Json.num n => (intDecString n).data
  | Json.arr vs =>
    match vs with
    | [] => ['[', ']']
    | v :: rest =>
      ['[', '\n'] ++ renderArrItems (ind + 2) v rest ++ '\n' :: indentChars ind ++ [']']
  | Json.obj kvs =>
    match kvs with
    | [] => ['{', '}']
    | (k, v) :: rest =>
      ['{', '\n'] ++ renderObjItems (ind + 2) k v rest ++ '\n' :: indentChars ind ++ ['}']
termination_by v => sizeOf v
decreasing_by all_goals (simp; try omega)

/-- The comma-and-newline separated array items, each indented. -/
def renderArrItems (ind : Nat) (v : Json) (vs : List Json) : List Char :=
  indentChars ind ++ renderJson ind v ++
    (match vs with
     | [] => []
     | w :: ws => ',' :: '\n' :: renderArrItems ind w ws)
termination_by sizeOf (v :: vs)
decreasing_by all_goals (simp; try omega)

/-- The comma-and-newline separated object entries, each indented, with
`"key": value` layout. -/
def renderObjItems (ind : Nat) (k : String) (v : Json) (kvs : List (String × Json)) : List Char :=
  indentChars ind ++ renderString k ++ ':' :: ' ' :: renderJson ind v ++
    (match kvs with
     | [] => []
     | (k2, v2) :: ws => ',' :: '\n' :: renderObjItems ind k2 v2 ws)
termination_by sizeOf ((k, v) :: kvs)
decreasing_by all_goals (simp; try omega)

end

/-- Whitespace skipped by `JSON.parse` between tokens. -/
def isJsonWs (c : Char) : Bool :=
  c == ' ' || c == '\t' || c == '\n' || c == '\r'

/-- Skip JSON whitespace. -/
def skipWs (s : List Char) : List Char :=
  s.dropWhile isJsonWs

/-- Unescape a simple escape character after a backslash. -/
def unescapeChar (c : Char) : Option Char :=
  if c = '"' then some '"'
  else if c = '\\' then some '\\'
  else if c = '/' then some '/'
  else if c = 'n' then some '\n'
  else if c = 'r' then some '\r'
  else if c = 't' then some '\t'
  else if c = 'b' then some '\x08'
  else if c = 'f' then some '\x0c'
  else none

/-- Parse the remainder of a JSON string literal (after the opening quote),
returning the unescaped contents and the remainder after the closing
quote. -/
def parseStringChars (s : List Char) : Option (List Char × List Char) :=
  match s with
  | [] => none
  | c :: r =>
    if c = '"' then some ([], r)
    else if c = '\\' then
      match r with
      | [] => none
      | e :: r2 =>
        if e = 'u' then
          match r2 with
          | h1 :: h2 :: h3 :: h4 :: r3 =>
            if isHexDigit h1 && isHexDigit h2 && isHexDigit h3 && isHexDigit h4 then
              (parseStringChars r3).map (fun p =>
                (Char.ofNat (((hexVal h1 * 16 + hexVal h2) * 16 + hexVal h3) * 16 + hexVal h4) :: p.1, p.2))
            else none
          | _ => none
        else
          match unescapeChar e with
          | some ch => (parseStringChars r2).map (fun p => (ch :: p.1, p.2))
          | none => none
    else (parseStringChars r).map (fun p => (c :: p.1, p.2))
termination_by s.length
decreasing_by all_goals (simp_all; try omega)

/-- Fold a digit run into its value. -/
def digitsToNat (ds : List Char) : Nat :=
  ds.foldl (fun a c => a * 10 + digitVal c) 0

/-- Parse a JSON integer number (optional minus sign, digit run). -/
def parseNum (s : List Char) : Option (Int × List Char) :=
  match s with
  | [] => none
  | c :: r =>
    if c = '-' then
      if (r.takeWhile Char.isDigit) = [] then none
      else some (-(digitsToNat (r.takeWhile Char.isDigit) : Int),
        r.drop (r.takeWhile Char.isDigit).length)
    else
      if ((c :: r).takeWhile Char.isDigit) = [] then none
      else some ((digitsToNat ((c :: r).takeWhile Char.isDigit) : Int),
        (c :: r).drop ((c :: r).takeWhile Char.isDigit).length)

mutual

/-- Fuel-indexed parser for one JSON value (leading whitespace allowed),
covering the value grammar emitted by this pipeline. -/
def parseValue : Nat → List Char → Option (Json × List Char)
  | 0, _ => none
  | fuel + 1, s0 =>
    match skipWs s0 with
    | [] => none
    | c :: r =>
      if c = '"' then (parseStringChars r).map (fun p => (Json.str ⟨p.1⟩, p.2))
      else if c = '[' then
        if (skipWs r).headD '?' = ']' then some (Json.arr [], (skipWs r).tail)
        else (parseArrItems fuel r).map (fun p => (Json.arr p.1, p.2))
      else if c = '{' then
        if (skipWs r).headD '?' = '}' then some (Json.obj [], (skipWs r).tail)
        else (parseObjItems fuel r).map (fun p => (Json.obj p.1, p.2))
      else (parseNum (c :: r)).map (fun p => (Json.num p.1, p.2))

/-- Parse one or more comma-separated array items up to the closing
bracket. -/
def parseArrItems : Nat → List Char → Option (List Json × List Char)
  | 0, _ => none
  | fuel + 1, s =>
    match parseValue fuel s with
    | none => none
    | some (v, rest) =>
      match skipWs rest with
      | ',' :: r2 => (parseArrItems fuel r2).map (fun p => (v :: p.1, p.2))
      | ']' :: r2 => some ([v], r2)
      | _ => none

/-- Parse one or more comma-separated `"key": value` entries up to the
closing brace. -/
def parseObjItems : Nat → List Char → Option (List (String × Json) × List Char)
  | 0, _ => none
  | fuel + 1, s =>
    match skipWs s with
    | '"' :: r =>
      match parseStringChars r with
      | none => none
      | some (k, r2) =>
        match skipWs r2 with
        | ':' :: r3 =>
          (match parseValue fuel r3 with
           | none => none
           | some (v, rest) =>
             match skipWs rest with
             | ',' :: r4 => (parseObjItems fuel r4).map (fun p => ((⟨k⟩, v) :: p.1, p.2))
             | '}' :: r4 => some ([(⟨k⟩, v)], r4)
             | _ => none)
        | _ => none
    | _ => none

end

/-- `JSON.parse`: parse one value and require only whitespace after it. -/
def parseJson (s : List Char) : Option Json :=
  match parseValue (s.length + 1) s with
  | some (v, rest) => if skipWs rest = [] then some v else none
  | none => none

/-- The JSON object for one property descriptor, keys in push order. -/
def encodeProp (p : PropDesc) : Json :=
  Json.obj [("name", Json.str p.name), ("defaultValue", Json.str p.defaultValue),
            ("description", Json.str p.description)]

/-- The JSON value of a tier entry. -/
def encodeTier : TierVal → Json
  | TierVal.num n => Json.num n
  | TierVal.str s => Json.str s

/-- The JSON object of one record, keys in the insertion order of the object
literal in `parseXmlFile` (sparse fields only when present), with
`tier`/`claude_comment` appended by the annotator's assignments. -/
def encodeRule (r : Rule) : Json :=
  Json.obj
    ([("name", Json.str r.name), ("category", Json.str r.category),
      ("categoryName", Json.str r.categoryName), ("since", Json.str r.since),
      ("message", Json.str r.message), ("ruleClass", Json.str r.ruleClass),
      ("externalInfoUrl", Json.str r.externalInfoUrl),
      ("description", Json.str r.description), ("priority", Json.num r.priority),
      ("examples", Json.arr (r.examples.map Json.str))] ++
     (match r.properties with
      | some ps => [("properties", Json.arr (ps.map encodeProp))]
      | none => []) ++
     (match r.maxLanguageVersion with
      | some v => [("maxLanguageVersion", Json.str v)]
      | none => []) ++
     (match r.minLanguageVersion with
      | some v => [("minLanguageVersion", Json.str v)]
      | none => []) ++
     (match r.tier with
      | some t => [("tier", encodeTier t)]
      | none => []) ++
     (match r.claude_comment with
      | some c => [("claude_comment", Json.str c)]
      | none => []))

/-- The serialized catalogue array. -/
def encodeRules (rules : List Rule) : Json :=
  Json.arr (rules.map encodeRule)

/-- Key lookup in a parsed JSON object (JS property access on the object
produced by `JSON.parse`). -/
def objGet (kvs : List (String × Json)) (k : String) : Option Json :=
  match kvs with
  | [] => none
  | (k2, v) :: rest => if k2 = k then some v else objGet rest k

/-- Read a string field. -/
def asStr : Option Json → Option String
  | some (Json.str s) => some s
  | _ => none

/-- Read an integer field. -/
def asNum : Option Json → Option Int
  | some (Json.num n) => some n
  | _ => none

/-- Read an array-of-strings field. -/
def decodeStrList : List Json → Option (List String)
  | [] => some []
  | Json.str s :: rest => (decodeStrList rest).map (fun l => s :: l)
  | _ => none

/-- Read one property descriptor back from its JSON object. -/
def decodeProp : Json → Option PropDesc
  | Json.obj kvs => do
    let n ← asStr (objGet kvs "name")
    let d ← asStr (objGet kvs "defaultValue")
    let de ← asStr (objGet kvs "description")
    pure { name := n, defaultValue := d, description := de }
  | _ => none

/-- Read an optional string field: distinguishes an absent key from a
present string value. -/
def decodeOptStr (kvs : List (String × Json)) (k : String) : Option (Option String) :=
  match objGet kvs k with
  | none => some none
  | some (Json.str s) => some (some s)
  | some _ => none

/-- Read one record back from its JSON object. -/
def decodeRule : Json → Option Rule
  | Json.obj kvs => do
    let n ← asStr (objGet kvs "name")
    let cat ← asStr (objGet kvs "category")
    let catName ← asStr (objGet kvs "categoryName")
    let sinceV ← asStr (objGet kvs "since")
    let msg ← asStr (objGet kvs "message")
    let rc ← asStr (objGet kvs "ruleClass")
    let url ← asStr (objGet kvs "externalInfoUrl")
    let desc ← asStr (objGet kvs "description")
    let prio ← asNum (objGet kvs "priority")
    let exs ← match objGet kvs "examples" with
      | some (Json.arr l) => decodeStrList l
      | _ => none
    let props ← match objGet kvs "properties" with
      | none => some none
      | some (Json.arr l) => (l.mapM decodeProp).map some
      | some _ => none
    let maxV ← decodeOptStr kvs "maxLanguageVersion"
    let minV ← decodeOptStr kvs "minLanguageVersion"
    let tierV ← match objGet kvs "tier" with
      | none => some none
      | some (Json.num n) => some (some (TierVal.num n))
      | some (Json.str s) => some (some (TierVal.str s))
      | some _ => none
    let cc ← decodeOptStr kvs "claude_comment"
    pure { name := n, category := cat, categoryName := catName, since := sinceV,
           message := msg, ruleClass := rc, externalInfoUrl := url,
           description := desc, priority := prio, examples := exs,
           properties := props, maxLanguageVersion := maxV,
           minLanguageVersion := minV, tier := tierV, claude_comment := cc }
  | _ => none

/-- Read the record array back from the parsed JSON value. -/
def decodeRules : Json → Option (List Rule)
  | Json.arr vs => vs.mapM decodeRule
  | _ => none

/-- The assignment head written before the JSON array. -/
def moduleHead : List Char :=
  "const RULES_DATA =".data

/-- The serialized data module:
`const RULES_DATA =\n` + `JSON.stringify(rules, null, 2)` + `;\n`. -/
def serializeCatalogue (rules : List Rule) : String :=
  ⟨moduleHead ++ '\n' :: renderJson 0 (encodeRules rules) ++ [';', '\n']⟩

/-- `raw.replace(/^const RULES_DATA =\s*/, "")`: drop the anchored head and
the whitespace run after it, when present. -/
def dropModuleHead (s : List Char) : List Char :=
  if listStartsWith moduleHead s then (s.drop moduleHead.length).dropWhile isJsWs
  else s

/-- `.replace(/;\s*$/, "")`: when the last non-whitespace character is `;`,
drop it together with the trailing whitespace. -/
def dropSemiTail (s : List Char) : List Char :=
  match s.reverse.dropWhile isJsWs with
  | ';' :: r2 => r2.reverse
  | _ => s

/-- The annotator's recovery of the JSON text from the module text. -/
def stripModuleText (s : List Char) : List Char :=
  dropSemiTail (dropModuleHead s)

/-- Reading the serialized catalogue back the way the annotator does:
strip the assignment wrapper, `JSON.parse` the rest, view it as records. -/
def parseCatalogueFile (content : String) : Option (List Rule) :=
  match parseJson (stripModuleText content.data) with
  | some j => decodeRules j
  | none => none

/-- The annotator's whole file transformation: returns the exit code and the
final content of the data file (unchanged unless the run reaches the final
write). -/
def runAnnotatorFile (table : List (String × TierInfo)) (content : String) :
    Nat × String :=
  match parseCatalogueFile content with
  | none => (1, content)
  | some rules =>
    match annotateRules table rules with
    | none => (1, content)
    | some rules2 => (0, serializeCatalogue rules2)

mutual

/-- Fuel bound sufficient for `parseValue` on a rendering of `v`. -/
def jsize : Json → Nat
  | Json.str _ => 1
  | Json.num _ => 1
  | Json.arr vs => 1 + jsizeA vs
  | Json.obj kvs => 1 + jsizeO kvs
termination_by v => sizeOf v
decreasing_by all_goals (simp; try omega)

/-- Fuel bound for `parseArrItems` on rendered items. -/
def jsizeA : List Json → Nat
  | [] => 0
  | v :: vs => 1 + jsize v + jsizeA vs
termination_by vs => sizeOf vs
decreasing_by all_goals (simp; try omega)

/-- Fuel bound for `parseObjItems` on rendered entries. -/
def jsizeO : List (String × Json) → Nat
  | [] => 0
  | kv :: kvs => 1 + jsize kv.2 + jsizeO kvs
termination_by kvs => sizeOf kvs
decreasing_by all_goals (obtain ⟨a, b⟩ := kv; simp; try omega)

end

/-- Structural induction over `Json` with membership hypotheses for the
children of arrays and objects. -/
def jsonInd (P : Json → Prop) (hs : ∀ s, P (Json.str s)) (hn : ∀ n, P (Json.num n))
    (ha : ∀ vs, (∀ v ∈ vs, P v) → P (Json.arr vs))
    (ho : ∀ kvs, (∀ kv ∈ kvs, P kv.2) → P (Json.obj kvs)) : ∀ v, P v
  | Json.str s => hs s
  | Json.num n => hn n
  | Json.arr vs => ha vs (fun w _ => jsonInd P hs hn ha ho w)
  | Json.obj kvs => ho kvs (fun kv _ => jsonInd P hs hn ha ho kv.2)
termination_by v => sizeOf v
decreasing_by
  · rename_i hmem
    have h1 := List.sizeOf_lt_of_mem hmem
    simp; omega
  · rename_i hmem
    have h1 := List.sizeOf_lt_of_mem hmem
    obtain ⟨a, b⟩ := kv
    simp at h1 ⊢; omega

/-- Spec-level substring relation: `pat` occurs contiguously inside `s`. -/
def isSubstringOf (pat s : List Char) : Prop :=
  ∃ t u, s = t ++ pat ++ u

/-- The catalogue order stated by the spec: category ascending, then
priority ascending, then name ascending. -/
def specLE (a b : Rule) : Prop :=
  a.category < b.category ∨
    (a.category = b.category ∧
      (a.priority < b.priority ∨ (a.priority = b.priority ∧ a.name ≤ b.name)))

/-- The sort key realized by the comparator: category, then priority, then
name, ordered lexicographically. -/
def keyOf (r : Rule) : String ×ₗ (Int ×ₗ String) :=
  toLex (r.category, toLex (r.priority, r.name))

/-- The viewer filter condition exactly as the claim states it: no category
selected or the category selected, no priority selected or the priority
selected, and an empty trimmed search term or a substring hit on the
lowercased name, message, description or category name. -/
def specViewerMatch (categories priorities : List String) (term : String) (r : Rule) : Prop :=
  (categories = [] ∨ r.category ∈ categories) ∧
  (priorities = [] ∨ intDecString r.priority ∈ priorities) ∧
  (term = "" ∨ isSubstringOf term.data (jsToLower r.name).data ∨
    isSubstringOf term.data (jsToLower r.message).data ∨
    isSubstringOf term.data (jsToLower r.description).data ∨
    isSubstringOf term.data (jsToLower r.categoryName).data)

/-- Modelled from the spec (claim wording): the name attributes of all
`<property` tags declared in a rule body, reading each tag up to its `>`. -/
def specPropTagScan : Nat → List Char → List String
  | 0, _ => []
  | fuel + 1, s =>
    match splitAtSubCI "<property".data s with
    | none => []
    | some (_, rest) =>
      match breakAtChar '>' rest with
      | none => []
      | some (tagAttrs, rest2) => extractAttr ⟨tagAttrs⟩ "name" :: specPropTagScan fuel rest2

/-- Modelled from the spec (claim wording): the body declares at least one
`<property name="...">` whose name is neither `xpath` nor `version`. -/
def specDeclaresQualifyingProp (body : String) : Bool :=
  (specPropTagScan (body.data.length + 1) body.data).any
    (fun n => !(n == "") && !(n == "xpath") && !(n == "version"))

/-- Forgetting the two annotator-owned fields of a record. -/
def frameOf (r : Rule) : Rule :=
  { r with tier := none, claude_comment := none }

/-- The key/value list of the JSON object of a record. -/
def ruleFields (r : Rule) : List (String × Json) :=
  match encodeRule r with
  | Json.obj kvs => kvs
  | _ => []

/-- A sample record used to instantiate theorems with hypotheses. -/
def sampleRule : Rule :=
  { name := "A", category := "design", categoryName := "KR", since := "1.0",
    message := "m", ruleClass := "net.X", externalInfoUrl := "u",
    description := "d", priority := 3, examples := [], properties := none,
    maxLanguageVersion := none, minLanguageVersion := none, tier := none,
    claude_comment := none }

/-- A second sample record with a different name and priority. -/
def sampleRule2 : Rule :=
  { sampleRule with name := "B", priority := 1 }

/-- A sample annotation table covering both sample records. -/
def sampleTable : List (String × TierInfo) :=
  [("A", { tier := TierVal.num 2, claude_comment := "ok" }),
   ("B", { tier := TierVal.str "skip", claude_comment := "no" })]

/-- The first character of the remainder, if any, is not a decimal digit, so
a number token before it cannot absorb part of it. -/
def headNotDigit (rest : List Char) : Prop :=
  ∀ c cs, rest = c :: cs → c.isDigit = false

/-!
## Theorems
-/

theorem frameOf_annotateOne (table : List (String × TierInfo)) (r : Rule) :
    frameOf (annotateOne table r) = frameOf r := by
  unfold annotateOne
  cases lookupTier table r.name <;> simp [frameOf]

/-- Claim C3: when at least one record name of a successfully parsed
catalogue has no entry in the annotation table, the annotator run exits with
status 1 and the data file content is left exactly as it was (no write
happens). -/
theorem annotator_atomic_on_missing (table : List (String × TierInfo))
    (content : String) (rules : List Rule)
    (h1 : parseCatalogueFile content = some rules)
    (h2 : ∃ r ∈ rules, lookupTier table r.name = none) :
    runAnnotatorFile table content = (1, content) := by
  obtain ⟨r, hr, hnone⟩ := h2
  have hmiss : r.name ∈ missingFromMap table rules := by
    simp only [missingFromMap, List.mem_filter, List.mem_map]
    exact ⟨⟨r, hr, rfl⟩, by simp [hnone]⟩
  have hne : missingFromMap table rules ≠ [] := List.ne_nil_of_mem hmiss
  simp [runAnnotatorFile, h1, annotateRules, hne]

/-- Claim C9: a successful annotator pass preserves the number of records,
their order, and every field other than `tier` and `claude_comment`. -/
theorem annotator_frame (table : List (String × TierInfo))
    (rules rules2 : List Rule) (h : annotateRules table rules = some rules2) :
    rules2.length = rules.length ∧ rules2.map frameOf = rules.map frameOf := by
  unfold annotateRules at h
  split at h
  · cases h
    refine ⟨by simp, ?_⟩
    rw [List.map_map]
    exact List.map_congr_left (fun r _ => frameOf_annotateOne table r)
  · cases h

theorem mem_parseXmlRules {xml category : String} {r : Rule} :
    r ∈ parseXmlRules xml category ↔
      ∃ ab ∈ ruleBlocks xml, hasRefAttr ab.1 = false ∧
        extractAttr ⟨ab.1⟩ "name" ≠ "" ∧
        r = mkRule category (rulesetNameOf xml category) ab.1 ab.2 := by
  unfold parseXmlRules
  rw [List.mem_filterMap]
  constructor
  · rintro ⟨ab, hab, hres⟩
    by_cases h1 : hasRefAttr ab.1
    · simp [h1] at hres
    · by_cases h2 : extractAttr ⟨ab.1⟩ "name" = ""
      · simp [h1, h2] at hres
      · simp only [h1, h2, if_false, Bool.false_eq_true, ite_false, Option.some.injEq] at hres
        exact ⟨ab, hab, by simp [h1], h2, hres.symm⟩
  · rintro ⟨ab, hab, h1, h2, rfl⟩
    exact ⟨ab, hab, by simp [h1, h2]⟩

theorem filterMap_eq_filter_map {α β : Type} (f : α → Option β) (p : α → Bool) (g : α → β)
    (h : ∀ a, f a = if p a then some (g a) else none) (l : List α) :
    l.filterMap f = (l.filter p).map g := by
  induction l with
  | nil => simp
  | cons a t ih =>
    by_cases hp : p a <;> simp [List.filterMap_cons, h, hp, ih]

theorem mkRule_name (category catName : String) (attrs body : List Char) :
    (mkRule category catName attrs body).name = extractAttr ⟨attrs⟩ "name" := rfl

/-- Claim C6: the parser emits no record for a block whose attributes
contain a `ref=` assignment, none for a block with an absent or empty
`name`; the emitted records are exactly the retained blocks in order, and
every emitted record has a non-empty name. -/
theorem parser_excludes_ref_and_unnamed (xml category : String) :
    (∀ r ∈ parseXmlRules xml category, r.name ≠ "") ∧
      parseXmlRules xml category =
        ((ruleBlocks xml).filter
            (fun ab => !hasRefAttr ab.1 && extractAttr ⟨ab.1⟩ "name" != "")).map
          (fun ab => mkRule category (rulesetNameOf xml category) ab.1 ab.2) := by
  constructor
  · intro r hr
    obtain ⟨ab, _, _, h2, rfl⟩ := mem_parseXmlRules.mp hr
    rw [mkRule_name]
    exact h2
  · apply filterMap_eq_filter_map
    intro ab
    by_cases h1 : hasRefAttr ab.1 <;> by_cases h2 : extractAttr ⟨ab.1⟩ "name" = "" <;>
      simp [h1, h2]

/-- Witness for C6: the record parsed from a one-rule document has a
non-empty name. -/
theorem parser_excludes_ref_and_unnamed_witness :
    ((parseXmlRules "<rule name=\"X\"></rule>" "design").getD 0 sampleRule).name ≠ "" :=
  (parser_excludes_ref_and_unnamed "<rule name=\"X\"></rule>" "design").1 _ (by decide)

theorem jsPriorityOf_ne_zero (s : String) : jsPriorityOf s ≠ 0 := by
  unfold jsPriorityOf
  cases h : jsParseInt s with
  | none => decide
  | some n =>
    by_cases hn : n = 0 <;> simp [hn]

theorem mkRule_priority (category catName : String) (attrs body : List Char) :
    (mkRule category catName attrs body).priority =
      jsPriorityOf (extractFirstElement ⟨body⟩ "priority") := rfl

/-- Claim C1 counterexample: a rule block with `<priority>7</priority>`
yields a record with priority 7, outside `[1,5]` — `parseInt(x) || 3` does
not clamp. -/
theorem priority_in_range_cex :
    (parseXmlRules "<rule name=\"X\"><priority>7</priority></rule>" "design").map
        Rule.priority = [7] ∧
      ¬ (∀ r ∈ parseXmlRules "<rule name=\"X\"><priority>7</priority></rule>" "design",
          1 ≤ r.priority ∧ r.priority ≤ 5) := by
  constructor
  · decide
  · decide

/-- Claim C1 (amended): every emitted record's priority is `parseInt` of
the first `<priority>` element's text when that parses to a non-zero
number, and exactly 3 when the element is absent, its text does not parse,
or it parses to 0; values outside `[1,5]` pass through unclamped. -/
theorem priority_amended (xml category : String) (r : Rule)
    (h : r ∈ parseXmlRules xml category) :
    r.priority ≠ 0 ∧
      ∃ ab ∈ ruleBlocks xml,
        r.priority = jsPriorityOf (extractFirstElement ⟨ab.2⟩ "priority") ∧
        (extractFirstElement ⟨ab.2⟩ "priority" = "" → r.priority = 3) ∧
        (jsParseInt (extractFirstElement ⟨ab.2⟩ "priority") = none → r.priority = 3) ∧
        (∀ n : Int, jsParseInt (extractFirstElement ⟨ab.2⟩ "priority") = some n →
          n ≠ 0 → r.priority = n) := by
  obtain ⟨ab, hab, _, _, rfl⟩ := mem_parseXmlRules.mp h
  rw [mkRule_priority]
  refine ⟨jsPriorityOf_ne_zero _, ab, hab, rfl, ?_, ?_, ?_⟩
  · intro he
    rw [he]
    decide
  · intro hn
    simp [jsPriorityOf, hn]
  · intro n hn hn0
    simp [jsPriorityOf, hn, hn0]

/-- Witness for the amended C1 at a concrete document. -/
theorem priority_amended_witness :
    ((parseXmlRules "<rule name=\"X\"><priority>7</priority></rule>" "design").getD 0
        sampleRule).priority ≠ 0 := by
  refine (priority_amended "<rule name=\"X\"><priority>7</priority></rule>" "design" _
    (by decide)).1

theorem mem_extractProperties {xml : String} {p : PropDesc} :
    p ∈ extractProperties xml ↔
      ∃ pm ∈ propScan (xml.data.length + 1) xml.data,
        ¬((⟨pm.nameV⟩ : String) = "xpath" ∨ (⟨pm.nameV⟩ : String) = "version") ∧
        p = { name := ⟨pm.nameV⟩, defaultValue := ⟨propDefaultVal pm⟩,
              description := ⟨propDescVal pm⟩ } := by
  unfold extractProperties
  rw [List.mem_filterMap]
  constructor
  · rintro ⟨pm, hpm, hres⟩
    by_cases hx : (⟨pm.nameV⟩ : String) = "xpath" ∨ (⟨pm.nameV⟩ : String) = "version"
    · simp [hx] at hres
    · rw [if_neg hx] at hres
      cases hres
      exact ⟨pm, hpm, hx, rfl⟩
  · rintro ⟨pm, hpm, hx, rfl⟩
    exact ⟨pm, hpm, by rw [if_neg hx]⟩

theorem mkRule_properties (category catName : String) (attrs body : List Char) :
    (mkRule category catName attrs body).properties =
      (if extractProperties ⟨body⟩ = [] then none else some (extractProperties ⟨body⟩)) := rfl

/-- Claim C7 counterexample: a body that declares a qualifying
`<property ... name="foo" ...>` whose `name` is not the first attribute
yields a record with no `properties` field at all, because the scanner's
`\s+name="` requires `name` to come first. -/
theorem properties_presence_cex :
    (ruleBlocks "<rule name=\"X\"><property type=\"t\" name=\"foo\" value=\"1\"/></rule>").map
        (fun ab => (⟨ab.2⟩ : String)) =
      ["<property type=\"t\" name=\"foo\" value=\"1\"/>"] ∧
    specDeclaresQualifyingProp "<property type=\"t\" name=\"foo\" value=\"1\"/>" = true ∧
    (parseXmlRules "<rule name=\"X\"><property type=\"t\" name=\"foo\" value=\"1\"/></rule>"
        "design").map Rule.properties = [none] := by
  exact ⟨by decide, by decide, by decide⟩

/-- Claim C7 (amended): `properties` is present on a record exactly when
the property-regex scan of its block body yields at least one descriptor —
the scan requires `name` to be the tag's first attribute, and a
self-closing tag followed by a later `</property>` is consumed as block
form (so intervening declarations can be dropped); every emitted
descriptor's name is neither `xpath` nor `version`, and its `defaultValue`
and `description` come from the match as `propDefaultVal`/`propDescVal`
choose them (a `value="..."` match in the whole match, else the first
nested `<value>` element of a non-empty block body, else empty; a
`description="..."` match, else empty). -/
theorem properties_amended (xml category : String) (r : Rule)
    (h : r ∈ parseXmlRules xml category) :
    ∃ ab ∈ ruleBlocks xml,
      (r.properties = none ↔ extractProperties ⟨ab.2⟩ = []) ∧
      (∀ ps, r.properties = some ps → ps = extractProperties ⟨ab.2⟩ ∧ ps ≠ []) ∧
      (∀ ps, r.properties = some ps → ∀ p ∈ ps,
        p.name ≠ "xpath" ∧ p.name ≠ "version" ∧
        ∃ pm ∈ propScan (ab.2.length + 1) ab.2, p.name = ⟨pm.nameV⟩ ∧
          p.defaultValue = ⟨propDefaultVal pm⟩ ∧ p.description = ⟨propDescVal pm⟩) := by
  obtain ⟨ab, hab, _, _, rfl⟩ := mem_parseXmlRules.mp h
  rw [mkRule_properties]
  refine ⟨ab, hab, ?_, ?_, ?_⟩
  · by_cases he : extractProperties ⟨ab.2⟩ = [] <;> simp [he]
  · intro ps hps
    by_cases he : extractProperties ⟨ab.2⟩ = [] <;> simp [he] at hps
    exact ⟨hps.symm, by rw [← hps]; exact he⟩
  · intro ps hps p hp
    by_cases he : extractProperties ⟨ab.2⟩ = [] <;> simp [he] at hps
    rw [← hps] at hp
    obtain ⟨pm, hpm, hx, rfl⟩ := mem_extractProperties.mp hp
    push_neg at hx
    exact ⟨hx.1, hx.2, pm, hpm, rfl, rfl, rfl⟩

/-- Witness for the amended C7 at a concrete document with one qualifying
property: the emitted descriptor is not a structural (`xpath`) one. -/
theorem properties_amended_witness :
    ((((parseXmlRules "<rule name=\"X\"><property name=\"p\" value=\"1\"/></rule>"
            "design").getD 0 sampleRule).properties.getD []).getD 0
        { name := "", defaultValue := "", description := "" }).name ≠ "xpath" := by
  obtain ⟨ab, hab, -, -, h3⟩ :=
    properties_amended "<rule name=\"X\"><property name=\"p\" value=\"1\"/></rule>" "design"
      ((parseXmlRules "<rule name=\"X\"><property name=\"p\" value=\"1\"/></rule>"
          "design").getD 0 sampleRule)
      (by decide)
  exact (h3 (((parseXmlRules "<rule name=\"X\"><property name=\"p\" value=\"1\"/></rule>"
      "design").getD 0 sampleRule).properties.getD []) (by decide) _ (by decide)).1

theorem encodeRule_shape (r : Rule) (ht : r.tier = none) (hc : r.claude_comment = none) :
    objGet (ruleFields r) "name" = some (Json.str r.name) ∧
    objGet (ruleFields r) "category" = some (Json.str r.category) ∧
    objGet (ruleFields r) "categoryName" = some (Json.str r.categoryName) ∧
    objGet (ruleFields r) "since" = some (Json.str r.since) ∧
    objGet (ruleFields r) "message" = some (Json.str r.message) ∧
    objGet (ruleFields r) "ruleClass" = some (Json.str r.ruleClass) ∧
    objGet (ruleFields r) "externalInfoUrl" = some (Json.str r.externalInfoUrl) ∧
    objGet (ruleFields r) "description" = some (Json.str r.description) ∧
    objGet (ruleFields r) "priority" = some (Json.num r.priority) ∧
    objGet (ruleFields r) "examples" = some (Json.arr (r.examples.map Json.str)) ∧
    (objGet (ruleFields r) "properties" = none ↔ r.properties = none) ∧
    (objGet (ruleFields r) "maxLanguageVersion" = none ↔ r.maxLanguageVersion = none) ∧
    (objGet (ruleFields r) "minLanguageVersion" = none ↔ r.minLanguageVersion = none) ∧
    objGet (ruleFields r) "tier" = none ∧
    objGet (ruleFields r) "claude_comment" = none := by
  obtain ⟨n, cat, cn, si, m, rc, u, d, pr, ex, props, mx, mn, t, cc⟩ := r
  simp only at ht hc
  subst ht hc
  rcases props with _ | ps <;> rcases mx with _ | mxv <;> rcases mn with _ | mnv <;>
    exact ⟨rfl, rfl, rfl, rfl, rfl, rfl, rfl, rfl, rfl, rfl,
           by simp [ruleFields, encodeRule, objGet],
           by simp [ruleFields, encodeRule, objGet],
           by simp [ruleFields, encodeRule, objGet], rfl, rfl⟩

/-- Claim C10: every record emitted by the parser always carries `since`,
`message`, `ruleClass`, `externalInfoUrl` and `description` as string
fields and `examples` as an array field; only `properties`,
`maxLanguageVersion` and `minLanguageVersion` are omitted, and exactly when
absent — so the viewer's unguarded lowercasing of `name`, `message` and
`description` always finds a string. -/
theorem parsed_record_fields (xml category : String) (r : Rule)
    (h : r ∈ parseXmlRules xml category) :
    objGet (ruleFields r) "name" = some (Json.str r.name) ∧
    objGet (ruleFields r) "category" = some (Json.str r.category) ∧
    objGet (ruleFields r) "categoryName" = some (Json.str r.categoryName) ∧
    objGet (ruleFields r) "since" = some (Json.str r.since) ∧
    objGet (ruleFields r) "message" = some (Json.str r.message) ∧
    objGet (ruleFields r) "ruleClass" = some (Json.str r.ruleClass) ∧
    objGet (ruleFields r) "externalInfoUrl" = some (Json.str r.externalInfoUrl) ∧
    objGet (ruleFields r) "description" = some (Json.str r.description) ∧
    objGet (ruleFields r) "priority" = some (Json.num r.priority) ∧
    objGet (ruleFields r) "examples" = some (Json.arr (r.examples.map Json.str)) ∧
    (objGet (ruleFields r) "properties" = none ↔ r.properties = none) ∧
    (objGet (ruleFields r) "maxLanguageVersion" = none ↔ r.maxLanguageVersion = none) ∧
    (objGet (ruleFields r) "minLanguageVersion" = none ↔ r.minLanguageVersion = none) ∧
    objGet (ruleFields r) "tier" = none ∧
    objGet (ruleFields r) "claude_comment" = none := by
  obtain ⟨ab, hab, -, -, rfl⟩ := mem_parseXmlRules.mp h
  exact encodeRule_shape _ rfl rfl

/-- Witness for C10 at a concrete one-rule document. -/
theorem parsed_record_fields_witness :
    objGet (ruleFields ((parseXmlRules "<rule name=\"X\"></rule>" "design").getD 0 sampleRule))
        "message" =
      some (Json.str ((parseXmlRules "<rule name=\"X\"></rule>" "design").getD 0
        sampleRule).message) :=
  (parsed_record_fields "<rule name=\"X\"></rule>" "design" _ (by decide)).2.2.2.2.1

theorem listStartsWith_iff (p s : List Char) :
    listStartsWith p s = true ↔ ∃ t, s = p ++ t := by
  induction p generalizing s with
  | nil => simp [listStartsWith]
  | cons a ps ih =>
    cases s with
    | nil => simp [listStartsWith]
    | cons c cs =>
      simp only [listStartsWith, Bool.and_eq_true, beq_iff_eq, ih]
      constructor
      · rintro ⟨rfl, t, rfl⟩
        exact ⟨t, rfl⟩
      · rintro ⟨t, ht⟩
        cases ht
        exact ⟨rfl, t, rfl⟩

theorem splitAtSub_isSome_iff (pat s : List Char) :
    (splitAtSub pat s).isSome = true ↔ isSubstringOf pat s := by
  induction s with
  | nil =>
    by_cases hp : pat = []
    · subst hp
      constructor
      · intro _
        exact ⟨[], [], rfl⟩
      · intro _
        simp [splitAtSub]
    · constructor
      · intro hc
        exfalso
        simp [splitAtSub, hp] at hc
      · rintro ⟨t, u, ht⟩
        exfalso
        have ht' := ht.symm
        simp only [List.append_eq_nil] at ht'
        exact hp ht'.1.2
  | cons c cs ih =>
    by_cases hst : listStartsWith pat (c :: cs) = true
    · rw [splitAtSub, if_pos hst]
      constructor
      · intro _
        obtain ⟨t, ht⟩ := (listStartsWith_iff pat (c :: cs)).mp hst
        exact ⟨[], t, by simpa using ht⟩
      · intro _
        rfl
    · rw [splitAtSub, if_neg hst]
      have hmap : ((splitAtSub pat cs).map (fun r => (c :: r.1, r.2))).isSome =
          (splitAtSub pat cs).isSome := by
        cases splitAtSub pat cs <;> rfl
      rw [hmap, ih]
      constructor
      · rintro ⟨t, u, rfl⟩
        exact ⟨c :: t, u, rfl⟩
      · rintro ⟨t, u, h⟩
        cases t with
        | nil =>
          exfalso
          apply hst
          rw [listStartsWith_iff]
          simp only [List.nil_append] at h
          exact ⟨u, h⟩
        | cons a t' =>
          rw [List.cons_append, List.cons_append] at h
          injection h with h1 h2
          subst h1
          exact ⟨t', u, by simpa using h2⟩

theorem jsIncludes_iff (hay needle : String) :
    jsIncludes hay needle = true ↔ isSubstringOf needle.data hay.data := by
  rw [jsIncludes, splitAtSub_isSome_iff]

theorem isSubstringOf_nil {pat : List Char} (h : isSubstringOf pat []) : pat = [] := by
  obtain ⟨t, u, ht⟩ := h
  have ht' := ht.symm
  simp only [List.append_eq_nil] at ht'
  exact ht'.1.2

theorem matchesRule_iff (categories priorities : List String) (term : String) (r : Rule) :
    matchesRule categories priorities term r = true ↔
      specViewerMatch categories priorities term r := by
  unfold matchesRule specViewerMatch
  simp only [Bool.and_eq_true, Bool.or_eq_true, List.isEmpty_iff, beq_iff_eq,
    List.contains, List.elem_iff, bne_iff_ne, ne_eq, jsIncludes_iff]
  constructor
  · rintro ⟨⟨h1, h2⟩, h3⟩
    refine ⟨h1, h2, ?_⟩
    rcases h3 with (((h | h) | h) | h) | ⟨_, h⟩
    · exact Or.inl h
    · exact Or.inr (Or.inl h)
    · exact Or.inr (Or.inr (Or.inl h))
    · exact Or.inr (Or.inr (Or.inr (Or.inl h)))
    · exact Or.inr (Or.inr (Or.inr (Or.inr h)))
  · rintro ⟨h1, h2, h3⟩
    refine ⟨⟨h1, h2⟩, ?_⟩
    rcases h3 with h | h | h | h | h
    · exact Or.inl (Or.inl (Or.inl (Or.inl h)))
    · exact Or.inl (Or.inl (Or.inl (Or.inr h)))
    · exact Or.inl (Or.inl (Or.inr h))
    · exact Or.inl (Or.inr h)
    · by_cases hcn : r.categoryName = ""
      · refine Or.inl (Or.inl (Or.inl (Or.inl ?_)))
        rw [hcn] at h
        have h0 : isSubstringOf term.data [] := h
        have hd := isSubstringOf_nil h0
        cases term
        simp only at hd
        rw [hd]
      · exact Or.inr ⟨hcn, h⟩

theorem join_chunks {α : Type} (n : Nat) (hn : 0 < n) :
    ∀ (len : Nat) (l : List α), l.length ≤ len →
      ((List.range ((l.length + n - 1) / n)).map (fun k => (l.drop (k * n)).take n)).flatten = l := by
  intro len
  induction len with
  | zero =>
    intro l hl
    have hnil : l = [] := List.eq_nil_of_length_eq_zero (Nat.le_zero.mp hl)
    subst hnil
    have h0 : (0 + n - 1) / n = 0 := Nat.div_eq_of_lt (by omega)
    simp [h0]
  | succ len ih =>
    intro l hl
    cases l with
    | nil =>
      have h0 : (0 + n - 1) / n = 0 := Nat.div_eq_of_lt (by omega)
      simp [h0]
    | cons a t =>
      have heq : (a :: t).length + n - 1 = ((a :: t).length - 1) + n := by
        have : 1 ≤ (a :: t).length := by simp
        omega
      rw [heq, Nat.add_div_right _ hn, List.range_succ_eq_map, List.map_cons, List.flatten_cons,
        Nat.zero_mul, List.drop_zero, List.map_map]
      have hm : ((a :: t).length - 1) / n = (((a :: t).drop n).length + n - 1) / n := by
        rw [List.length_drop]
        rcases Nat.lt_or_ge (a :: t).length n with hlt | hge
        · have h1 : (a :: t).length - n = 0 := by omega
          rw [h1, Nat.div_eq_of_lt (by omega), Nat.div_eq_of_lt (by omega)]
        · congr 1
          omega
      have hcomp : (fun k => ((a :: t).drop (k * n)).take n) ∘ Nat.succ =
          fun k => (((a :: t).drop n).drop (k * n)).take n := by
        funext k
        simp only [Function.comp_apply]
        rw [List.drop_drop]
        congr 2
        rw [Nat.succ_mul]
        omega
      rw [hcomp, hm, ih ((a :: t).drop n) (by rw [List.length_drop]; omega)]
      exact List.take_append_drop n (a :: t)

/-- Claim C8: a rule is in the viewer's filtered result exactly when it
passes the category filter, the priority filter and the trimmed,
lowercased substring search over name, message, description and category
name; the filtered result is paginated in fixed pages of
`RULES_PER_PAGE = 20` records (each page is the corresponding 20-element
slice and the pages concatenate back to the filtered list). -/
theorem viewer_filter_pagination (rules : List Rule) (categories priorities : List String)
    (searchRaw : String) :
    (∀ r, r ∈ applyFilters rules categories priorities searchRaw ↔
        r ∈ rules ∧
          specViewerMatch categories priorities ⟨jsTrim (jsToLower searchRaw).data⟩ r) ∧
    (∀ p, (pageRules (applyFilters rules categories priorities searchRaw) p).length ≤
        RULES_PER_PAGE) ∧
    (∀ p i, i < RULES_PER_PAGE →
        (pageRules (applyFilters rules categories priorities searchRaw) p)[i]? =
          (applyFilters rules categories priorities searchRaw)[(p - 1) * RULES_PER_PAGE + i]?) ∧
    ((List.range (((applyFilters rules categories priorities searchRaw).length +
            RULES_PER_PAGE - 1) / RULES_PER_PAGE)).map
        (fun k => pageRules (applyFilters rules categories priorities searchRaw)
          (k + 1))).flatten =
      applyFilters rules categories priorities searchRaw := by
  refine ⟨?_, ?_, ?_, ?_⟩
  · intro r
    rw [applyFilters, List.mem_filter, matchesRule_iff]
  · intro p
    rw [pageRules]
    simp [List.length_take]
  · intro p i hi
    rw [pageRules, List.getElem?_take_of_lt hi, List.getElem?_drop]
  · have hfun : (fun k => pageRules (applyFilters rules categories priorities searchRaw)
        (k + 1)) =
        fun k => ((applyFilters rules categories priorities searchRaw).drop
          (k * RULES_PER_PAGE)).take RULES_PER_PAGE := by
      funext k
      rw [pageRules]
      congr 2
    rw [hfun]
    exact join_chunks RULES_PER_PAGE (by decide) _ _ (Nat.le_refl _)

/-- Witness instantiating C8's pagination bound at page 1 of an empty
catalogue and empty filters. -/
theorem viewer_filter_pagination_witness :
    (pageRules (applyFilters [] [] [] "") 1)[0]? = (applyFilters [] [] [] "")[0]? := by
  have h := (viewer_filter_pagination [] [] [] "").2.2.1 1 0 (by decide)
  simpa using h

theorem jsStrCmp_le_iff (a b : String) : jsStrCmp a b ≤ 0 ↔ a ≤ b := by
  unfold jsStrCmp
  rcases lt_trichotomy a b with h | h | h
  · simp [h, le_of_lt h]
  · simp [h]
  · rw [if_neg (not_lt_of_gt h), if_pos h]
    simp [not_le_of_gt h]

theorem jsStrCmp_eq_zero_iff (a b : String) : jsStrCmp a b = 0 ↔ a = b := by
  unfold jsStrCmp
  rcases lt_trichotomy a b with h | h | h
  · simp [h, ne_of_lt h]
  · simp [h, lt_irrefl]
  · rw [if_neg (not_lt_of_gt h), if_pos h]
    simp [(ne_of_lt h).symm]

/-- The record comparator agrees with the lexicographic key order. -/
theorem cmpRule_le_iff (a b : Rule) : cmpRule a b ≤ 0 ↔ keyOf a ≤ keyOf b := by
  unfold cmpRule keyOf
  rw [Prod.Lex.le_iff]
  by_cases hc : a.category = b.category
  · rw [if_neg (by simpa using hc)]
    by_cases hp : a.priority = b.priority
    · rw [if_neg (by simpa using hp)]
      rw [Prod.Lex.le_iff]
      simp [hc, hp, jsStrCmp_le_iff]
    · rw [if_pos hp]
      rw [Prod.Lex.le_iff]
      simp only [hc, lt_irrefl, true_and, false_or, hp, false_and, or_false]
      omega
  · rw [if_pos hc]
    have hiff := jsStrCmp_le_iff a.category b.category
    constructor
    · intro h
      exact Or.inl (lt_of_le_of_ne (hiff.mp h) hc)
    · rintro (h | ⟨h, -⟩)
      · exact hiff.mpr (le_of_lt h)
      · exact absurd h hc

theorem jsStrCmp_swap (a b : String) : jsStrCmp b a = -jsStrCmp a b := by
  unfold jsStrCmp
  rcases lt_trichotomy a b with h | h | h
  · rw [if_neg (not_lt_of_gt h), if_pos h, if_pos h]
    decide
  · subst h
    simp
  · rw [if_pos h, if_neg (not_lt_of_gt h), if_pos h]

theorem cmpRule_swap (a b : Rule) : cmpRule b a = -cmpRule a b := by
  unfold cmpRule
  by_cases hc : a.category = b.category
  · have hbc : ¬(b.category ≠ a.category) := by simp [hc]
    have hac : ¬(a.category ≠ b.category) := by simp [hc]
    rw [if_neg hbc, if_neg hac]
    by_cases hp : a.priority = b.priority
    · rw [if_neg (by simp [hp]), if_neg (by simp [hp])]
      exact jsStrCmp_swap a.name b.name
    · rw [if_pos (Ne.symm hp), if_pos hp]
      omega
  · rw [if_pos (Ne.symm hc), if_pos hc]
    exact jsStrCmp_swap a.category b.category

theorem cmpRule_pos_iff (a b : Rule) : 0 < cmpRule a b ↔ keyOf b < keyOf a := by
  constructor
  · intro h
    by_contra hle
    rw [not_lt] at hle
    have h2 := (cmpRule_le_iff a b).mpr hle
    omega
  · intro h
    by_contra h0
    rw [not_lt] at h0
    exact absurd ((cmpRule_le_iff a b).mp h0) (not_le_of_gt h)

theorem cmpRule_lt_iff (a b : Rule) : cmpRule a b < 0 ↔ keyOf a < keyOf b := by
  have hswap := cmpRule_swap a b
  constructor
  · intro h
    exact (cmpRule_pos_iff b a).mp (by omega)
  · intro h
    have := (cmpRule_pos_iff b a).mpr h
    omega

theorem cmpRule_eq_zero_iff (a b : Rule) : cmpRule a b = 0 ↔ keyOf a = keyOf b := by
  have hswap := cmpRule_swap a b
  constructor
  · intro h
    exact le_antisymm ((cmpRule_le_iff a b).mp (by omega))
      ((cmpRule_le_iff b a).mp (by omega))
  · intro h
    have h1 := (cmpRule_le_iff a b).mpr h.le
    have h2 := (cmpRule_le_iff b a).mpr h.ge
    omega

theorem insertSorted_perm (x : Rule) (l : List Rule) :
    (insertSorted x l).Perm (x :: l) := by
  induction l with
  | nil => exact List.Perm.refl _
  | cons y ys ih =>
    rw [insertSorted]
    by_cases h : cmpRule x y > 0
    · rw [if_pos h]
      exact (ih.cons y).trans (List.Perm.swap x y ys)
    · rw [if_neg h]

theorem sortRules_perm (l : List Rule) : (sortRules l).Perm l := by
  induction l with
  | nil => exact List.Perm.refl _
  | cons x xs ih =>
    rw [sortRules]
    exact (insertSorted_perm x (sortRules xs)).trans (ih.cons x)

theorem insertSorted_sorted (x : Rule) (l : List Rule)
    (h : l.Pairwise (fun a b => cmpRule a b ≤ 0)) :
    (insertSorted x l).Pairwise (fun a b => cmpRule a b ≤ 0) := by
  induction l with
  | nil => simp [insertSorted]
  | cons y ys ih =>
    rw [insertSorted]
    rw [List.pairwise_cons] at h
    by_cases hc : cmpRule x y > 0
    · rw [if_pos hc, List.pairwise_cons]
      constructor
      · intro z hz
        rcases List.mem_cons.mp ((insertSorted_perm x ys).mem_iff.mp hz) with hzx | hz2
        · subst hzx
          have := cmpRule_swap z y
          omega
        · exact h.1 z hz2
      · exact ih h.2
    · rw [if_neg hc, List.pairwise_cons]
      constructor
      · intro z hz
        rcases List.mem_cons.mp hz with rfl | hz2
        · omega
        · have h1 : cmpRule x y ≤ 0 := by omega
          have h2 : cmpRule y z ≤ 0 := h.1 z hz2
          rw [cmpRule_le_iff] at h1 h2 ⊢
          exact le_trans h1 h2
      · exact List.pairwise_cons.mpr h

theorem sortRules_sorted (l : List Rule) :
    (sortRules l).Pairwise (fun a b => cmpRule a b ≤ 0) := by
  induction l with
  | nil => simp [sortRules]
  | cons x xs ih => exact insertSorted_sorted x _ ih

theorem perm_pairwise_lt_eq {lt : Rule → Rule → Prop}
    (hasym : ∀ a b, lt a b → lt b a → False) :
    ∀ (l₁ l₂ : List Rule), l₁.Perm l₂ → l₁.Pairwise lt → l₂.Pairwise lt → l₁ = l₂ := by
  intro l₁
  induction l₁ with
  | nil =>
    intro l₂ hp _ _
    exact List.Perm.nil_eq hp
  | cons a t ih =>
    intro l₂ hp h1 h2
    cases l₂ with
    | nil => exact absurd hp.eq_nil (by simp)
    | cons b t₂ =>
      by_cases hab : a = b
      · subst hab
        rw [ih t₂ hp.cons_inv (List.pairwise_cons.mp h1).2 (List.pairwise_cons.mp h2).2]
      · exfalso
        have ha2 : a ∈ b :: t₂ := hp.mem_iff.mp (List.mem_cons_self a t)
        have hb1 : b ∈ a :: t := hp.mem_iff.mpr (List.mem_cons_self b t₂)
        rcases List.mem_cons.mp ha2 with h | h
        · exact hab h
        · rcases List.mem_cons.mp hb1 with h' | h'
          · exact hab h'.symm
          · exact hasym a b ((List.pairwise_cons.mp h1).1 b h')
              ((List.pairwise_cons.mp h2).1 a h)

theorem keyOf_eq_name {a b : Rule} (h : keyOf a = keyOf b) : a.name = b.name :=
  congrArg (fun x => (ofLex (ofLex x).2).2) h

theorem sorted_nodup_pairwise_lt (l : List Rule)
    (hs : l.Pairwise (fun a b => cmpRule a b ≤ 0))
    (hn : (l.map Rule.name).Nodup) :
    l.Pairwise (fun a b => cmpRule a b < 0) := by
  have hne : l.Pairwise (fun a b => a.name ≠ b.name) := List.pairwise_map.mp hn
  refine (hs.and hne).imp ?_
  rintro a b ⟨h1, h2⟩
  rcases lt_or_eq_of_le h1 with h | h
  · exact h
  · exfalso
    exact h2 (keyOf_eq_name ((cmpRule_eq_zero_iff a b).mp h))

/-- Claim C2: the sorted catalogue is ordered by the spec's three-level
total order (category, then priority, then name, all ascending) and, when
record names are unique as the data model requires, the sorted sequence is
the same for any parse order of the same records; the sort itself is a
deterministic function, so repeated runs on identical input produce
identical output. -/
theorem catalogue_order_deterministic (l₁ l₂ : List Rule)
    (hperm : l₁.Perm l₂) (hnames : (l₁.map Rule.name).Nodup) :
    sortRules l₁ = sortRules l₂ ∧ (sortRules l₁).Pairwise specLE := by
  have hn₂ : (l₂.map Rule.name).Nodup := ((hperm.map Rule.name).nodup_iff).mp hnames
  have hns₁ : ((sortRules l₁).map Rule.name).Nodup :=
    (((sortRules_perm l₁).map Rule.name).nodup_iff).mpr hnames
  have hns₂ : ((sortRules l₂).map Rule.name).Nodup :=
    (((sortRules_perm l₂).map Rule.name).nodup_iff).mpr hn₂
  have hlt₁ := sorted_nodup_pairwise_lt _ (sortRules_sorted l₁) hns₁
  have hlt₂ := sorted_nodup_pairwise_lt _ (sortRules_sorted l₂) hns₂
  have hpp : (sortRules l₁).Perm (sortRules l₂) :=
    (sortRules_perm l₁).trans (hperm.trans (sortRules_perm l₂).symm)
  constructor
  · refine perm_pairwise_lt_eq ?_ _ _ hpp hlt₁ hlt₂
    intro a b hab hba
    rw [cmpRule_lt_iff] at hab hba
    exact absurd hba (not_lt_of_gt hab)
  · refine (sortRules_sorted l₁).imp ?_
    intro a b h
    rw [cmpRule_le_iff] at h
    unfold keyOf at h
    rw [Prod.Lex.le_iff] at h
    unfold specLE
    rcases h with h | ⟨heq, h2⟩
    · exact Or.inl h
    · rw [Prod.Lex.le_iff] at h2
      refine Or.inr ⟨heq, ?_⟩
      rcases h2 with h2 | ⟨h2e, h2l⟩
      · exact Or.inl h2
      · exact Or.inr ⟨h2e, h2l⟩

/-- Witness for C2 at two concrete parse orders of the same two records. -/
theorem catalogue_order_witness :
    sortRules [sampleRule, sampleRule2] = sortRules [sampleRule2, sampleRule] ∧
      (sortRules [sampleRule, sampleRule2]).Pairwise specLE :=
  catalogue_order_deterministic [sampleRule, sampleRule2] [sampleRule2, sampleRule]
    (List.Perm.swap sampleRule2 sampleRule []) (by decide)

theorem decDigitChar_isDigit {d : Nat} (h : d < 10) : (decDigitChar d).isDigit = true := by
  interval_cases d <;> decide

theorem digitVal_decDigitChar {d : Nat} (h : d < 10) : digitVal (decDigitChar d) = d := by
  interval_cases d <;> decide

theorem natDecChars_ne_nil (n : Nat) : natDecChars n ≠ [] := by
  unfold natDecChars
  split <;> simp

theorem natDecChars_digits (n : Nat) : ∀ c ∈ natDecChars n, c.isDigit = true := by
  induction n using Nat.strong_induction_on with
  | _ n ih =>
    unfold natDecChars
    split
    · intro c hc
      rw [List.mem_singleton] at hc
      subst hc
      exact decDigitChar_isDigit (by omega)
    · intro c hc
      rcases List.mem_append.mp hc with h1 | h1
      · exact ih (n / 10) (Nat.div_lt_self (by omega) (by omega)) c h1
      · rw [List.mem_singleton] at h1
        subst h1
        exact decDigitChar_isDigit (Nat.mod_lt _ (by omega))

theorem digitsToNat_append (xs ys : List Char) :
    digitsToNat (xs ++ ys) = ys.foldl (fun a c => a * 10 + digitVal c) (digitsToNat xs) := by
  unfold digitsToNat
  rw [List.foldl_append]

theorem digitsToNat_natDecChars (n : Nat) : digitsToNat (natDecChars n) = n := by
  induction n using Nat.strong_induction_on with
  | _ n ih =>
    unfold natDecChars
    split
    · rename_i h
      simp [digitsToNat, digitVal_decDigitChar h]
    · rename_i h
      rw [digitsToNat_append, ih (n / 10) (Nat.div_lt_self (by omega) (by omega))]
      have hm : digitVal (decDigitChar (n % 10)) = n % 10 :=
        digitVal_decDigitChar (Nat.mod_lt _ (by omega))
      simp [List.foldl, hm]
      omega

theorem takeWhile_append_all {p : Char → Bool} (xs rest : List Char)
    (hall : ∀ c ∈ xs, p c = true) (hrest : ∀ c cs, rest = c :: cs → p c = false) :
    (xs ++ rest).takeWhile p = xs := by
  induction xs with
  | nil =>
    cases rest with
    | nil => rfl
    | cons c cs => simp [List.takeWhile_cons, hrest c cs rfl]
  | cons x xs ih =>
    rw [List.cons_append, List.takeWhile_cons, hall x (by simp)]
    simp only [if_true, ite_true, List.cons.injEq, true_and]
    exact ih (fun c hc => hall c (by simp [hc]))

theorem parseNum_intDecString (n : Int) (rest : List Char)
    (hrest : ∀ c cs, rest = c :: cs → c.isDigit = false) :
    parseNum ((intDecString n).data ++ rest) = some (n, rest) := by
  unfold intDecString
  by_cases hn : n < 0
  · rw [if_pos hn]
    show parseNum (('-' :: natDecChars (-n).toNat) ++ rest) = _
    rw [List.cons_append]
    simp only [parseNum, if_true, ite_true]
    rw [takeWhile_append_all _ _ (natDecChars_digits _) hrest,
      if_neg (natDecChars_ne_nil _), digitsToNat_natDecChars, List.drop_left]
    simp only [Option.some.injEq, Prod.mk.injEq]
    exact ⟨by omega, trivial⟩
  · rw [if_neg hn]
    show parseNum (natDecChars n.toNat ++ rest) = _
    rcases hND : natDecChars n.toNat with _ | ⟨c, cs⟩
    · exact absurd hND (natDecChars_ne_nil _)
    · have hc : c.isDigit = true := natDecChars_digits _ c (by rw [hND]; simp)
      have hcm : ¬(c = '-') := fun hq => by
        rw [hq] at hc
        exact absurd hc (by decide)
      rw [List.cons_append]
      simp only [parseNum]
      rw [if_neg hcm, ← List.cons_append, ← hND,
        takeWhile_append_all _ _ (natDecChars_digits _) hrest,
        if_neg (natDecChars_ne_nil _), digitsToNat_natDecChars, List.drop_left]
      simp only [Option.some.injEq, Prod.mk.injEq]
      refine ⟨by omega, by simp⟩

theorem hexDigitChar_isHex {d : Nat} (h : d < 16) :
    isHexDigit (escapeChar.hexDigitChar d) = true := by
  interval_cases d <;> decide

theorem hexVal_hexDigitChar {d : Nat} (h : d < 16) :
    hexVal (escapeChar.hexDigitChar d) = d := by
  interval_cases d <;> decide

theorem decDigitChar_isHex {d : Nat} (h : d < 10) :
    isHexDigit (decDigitChar d) = true := by
  interval_cases d <;> decide

theorem hexVal_decDigitChar {d : Nat} (h : d < 10) :
    hexVal (decDigitChar d) = d := by
  interval_cases d <;> decide

theorem parseStringChars_escape_step (c : Char) (x : List Char) :
    parseStringChars (escapeChar c ++ x) =
      (parseStringChars x).map (fun p => (c :: p.1, p.2)) := by
  unfold escapeChar
  by_cases h1 : c = '"'
  · subst h1
    rw [if_pos rfl, parseStringChars.eq_def]
    simp [unescapeChar]
  · rw [if_neg h1]
    by_cases h2 : c = '\\'
    · subst h2
      rw [if_pos rfl, parseStringChars.eq_def]
      simp [unescapeChar]
    · rw [if_neg h2]
      by_cases h3 : c = '\n'
      · subst h3
        rw [if_pos rfl, parseStringChars.eq_def]
        simp [unescapeChar]
      · rw [if_neg h3]
        by_cases h4 : c = '\r'
        · subst h4
          rw [if_pos rfl, parseStringChars.eq_def]
          simp [unescapeChar]
        · rw [if_neg h4]
          by_cases h5 : c = '\t'
          · subst h5
            rw [if_pos rfl, parseStringChars.eq_def]
            simp [unescapeChar]
          · rw [if_neg h5]
            by_cases h6 : c = '\x08'
            · subst h6
              rw [if_pos rfl, parseStringChars.eq_def]
              simp [unescapeChar]
            · rw [if_neg h6]
              by_cases h7 : c = '\x0c'
              · subst h7
                rw [if_pos rfl, parseStringChars.eq_def]
                simp [unescapeChar]
              · rw [if_neg h7]
                by_cases h8 : c.toNat < 32
                · rw [if_pos h8]
                  have hdiv : c.toNat / 16 < 10 := by omega
                  have hmod : c.toNat % 16 < 16 := by omega
                  have hd1 : isHexDigit (decDigitChar (c.toNat / 16)) = true :=
                    decDigitChar_isHex hdiv
                  have hd2 : isHexDigit (escapeChar.hexDigitChar (c.toNat % 16)) = true :=
                    hexDigitChar_isHex hmod
                  have hv1 : hexVal (decDigitChar (c.toNat / 16)) = c.toNat / 16 :=
                    hexVal_decDigitChar hdiv
                  have hv2 : hexVal (escapeChar.hexDigitChar (c.toNat % 16)) = c.toNat % 16 :=
                    hexVal_hexDigitChar hmod
                  have h00 : isHexDigit '0' = true := by decide
                  have h0v : hexVal '0' = 0 := by decide
                  have hsum : c.toNat / 16 * 16 + c.toNat % 16 = c.toNat := by
                    omega
                  rw [parseStringChars.eq_def]
                  simp [hd1, hd2, hv1, hv2, h00, h0v, hsum, Char.ofNat_toNat]
                · rw [if_neg h8]
                  rw [parseStringChars.eq_def]
                  simp only [List.cons_append, List.nil_append]
                  simp [h1, h2]

theorem parseStringChars_escape (s : List Char) (rest : List Char) :
    parseStringChars ((s.flatMap escapeChar) ++ ('"' :: rest)) = some (s, rest) := by
  induction s with
  | nil =>
    simp only [List.flatMap_nil, List.nil_append]
    rw [parseStringChars.eq_def]
    simp
  | cons c cs ih =>
    rw [List.flatMap_cons, List.append_assoc, parseStringChars_escape_step, ih]
    rfl

theorem skipWs_ws_append (pre x : List Char) (h : ∀ c ∈ pre, isJsonWs c = true) :
    skipWs (pre ++ x) = skipWs x := by
  induction pre with
  | nil => rfl
  | cons c cs ih =>
    show List.dropWhile isJsonWs (c :: (cs ++ x)) = _
    rw [List.dropWhile_cons, if_pos (h c (by simp))]
    exact ih (fun c2 hc2 => h c2 (by simp [hc2]))

theorem skipWs_cons_not (c : Char) (x : List Char) (h : isJsonWs c = false) :
    skipWs (c :: x) = c :: x := by
  show List.dropWhile isJsonWs (c :: x) = _
  rw [List.dropWhile_cons, if_neg (by simp [h])]

theorem indentChars_ws (n : Nat) : ∀ c ∈ indentChars n, isJsonWs c = true := by
  intro c hc
  rw [indentChars, List.mem_replicate] at hc
  rw [hc.2]
  decide

theorem digit_ne {c d : Char} (h : c.isDigit = true) (hd : d.isDigit = false) : c ≠ d := by
  intro he
  rw [he, hd] at h
  cases h

theorem digit_not_jsonWs {c : Char} (h : c.isDigit = true) : isJsonWs c = false := by
  have h1 : c ≠ ' ' := digit_ne h (by decide)
  have h2 : c ≠ '\t' := digit_ne h (by decide)
  have h3 : c ≠ '\n' := digit_ne h (by decide)
  have h4 : c ≠ '\r' := digit_ne h (by decide)
  simp [isJsonWs, h1, h2, h3, h4]

theorem renderJson_head (ind : Nat) (v : Json) :
    ∃ c cs, renderJson ind v = c :: cs ∧ isJsonWs c = false ∧ c ≠ ']' ∧ c ≠ '}' := by
  cases v with
  | str s =>
    refine ⟨'"', s.data.flatMap escapeChar ++ ['"'], ?_, by decide, by decide, by decide⟩
    rw [renderJson]
    rfl
  | num n =>
    rw [renderJson]
    unfold intDecString
    by_cases hn : n < 0
    · rw [if_pos hn]
      exact ⟨'-', natDecChars (-n).toNat, rfl, by decide, by decide, by decide⟩
    · rw [if_neg hn]
      rcases hND : natDecChars n.toNat with _ | ⟨c, cs⟩
      · exact absurd hND (natDecChars_ne_nil _)
      · have hc : c.isDigit = true := natDecChars_digits _ c (by rw [hND]; simp)
        exact ⟨c, cs, rfl, digit_not_jsonWs hc, digit_ne hc (by decide),
          digit_ne hc (by decide)⟩
  | arr vs =>
    cases vs with
    | nil =>
      refine ⟨'[', [']'], ?_, by decide, by decide, by decide⟩
      rw [renderJson]
    | cons v rest =>
      refine ⟨'[', '\n' :: renderArrItems (ind + 2) v rest ++ '\n' :: indentChars ind ++ [']'],
        ?_, by decide, by decide, by decide⟩
      rw [renderJson]
      rfl
  | obj kvs =>
    cases kvs with
    | nil =>
      refine ⟨'{', ['}'], ?_, by decide, by decide, by decide⟩
      rw [renderJson]
    | cons kv rest =>
      refine ⟨'{', '\n' :: renderObjItems (ind + 2) kv.1 kv.2 rest ++
          '\n' :: indentChars ind ++ ['}'], ?_, by decide, by decide, by decide⟩
      obtain ⟨k2, v2⟩ := kv
      rw [renderJson]
      rfl

theorem parseValue_ws (fuel : Nat) (pre x : List Char) (h : ∀ c ∈ pre, isJsonWs c = true) :
    parseValue fuel (pre ++ x) = parseValue fuel x := by
  cases fuel with
  | zero => rfl
  | succ f =>
    rw [parseValue, parseValue, skipWs_ws_append pre x h]

theorem parseArrItems_ws (fuel : Nat) (pre x : List Char) (h : ∀ c ∈ pre, isJsonWs c = true) :
    parseArrItems fuel (pre ++ x) = parseArrItems fuel x := by
  cases fuel with
  | zero => rfl
  | succ f =>
    rw [parseArrItems, parseArrItems, parseValue_ws f pre x h]

theorem parseObjItems_ws (fuel : Nat) (pre x : List Char) (h : ∀ c ∈ pre, isJsonWs c = true) :
    parseObjItems fuel (pre ++ x) = parseObjItems fuel x := by
  cases fuel with
  | zero => rfl
  | succ f =>
    rw [parseObjItems, parseObjItems, skipWs_ws_append pre x h]

theorem jsize_pos (v : Json) : 1 ≤ jsize v := by
  cases v <;> rw [jsize] <;> omega

theorem jsizeA_pos (v : Json) (vs : List Json) : 1 ≤ jsizeA (v :: vs) := by
  rw [jsizeA]
  omega

theorem headNotDigit_nil : headNotDigit [] :=
  fun _ _ h => List.noConfusion h

theorem headNotDigit_cons {c : Char} (x : List Char) (h : c.isDigit = false) :
    headNotDigit (c :: x) := by
  intro c2 cs2 he
  injection he with h1 h2
  rw [← h1]
  exact h

theorem renderArrItems_nil (ind : Nat) (v : Json) :
    renderArrItems ind v [] = indentChars ind ++ renderJson ind v := by
  rw [renderArrItems]
  simp

theorem renderArrItems_cons (ind : Nat) (v w : Json) (ws : List Json) :
    renderArrItems ind v (w :: ws) =
      indentChars ind ++ renderJson ind v ++ (',' :: '\n' :: renderArrItems ind w ws) := by
  rw [renderArrItems]

theorem renderObjItems_nil (ind : Nat) (k : String) (v : Json) :
    renderObjItems ind k v [] =
      indentChars ind ++ renderString k ++ ':' :: ' ' :: renderJson ind v := by
  rw [renderObjItems]
  simp

theorem renderObjItems_cons (ind : Nat) (k : String) (v : Json) (k2 : String) (v2 : Json)
    (ws : List (String × Json)) :
    renderObjItems ind k v ((k2, v2) :: ws) =
      indentChars ind ++ renderString k ++ ':' :: ' ' :: renderJson ind v ++
        (',' :: '\n' :: renderObjItems ind k2 v2 ws) := by
  rw [renderObjItems]

theorem renderArrItems_decomp (ind : Nat) (v : Json) (vs : List Json) :
    ∃ t, renderArrItems ind v vs = indentChars ind ++ (renderJson ind v ++ t) := by
  cases vs with
  | nil => exact ⟨[], by rw [renderArrItems_nil]; simp⟩
  | cons w ws =>
    exact ⟨',' :: '\n' :: renderArrItems ind w ws, by rw [renderArrItems_cons]; simp⟩

theorem skipWs_arrItems_head (ind : Nat) (v : Json) (vs : List Json) (X : List Char) :
    ∃ c cs, skipWs (renderArrItems ind v vs ++ X) = c :: cs ∧ c ≠ ']' ∧ c ≠ '}' := by
  obtain ⟨t, ht⟩ := renderArrItems_decomp ind v vs
  obtain ⟨c0, cs0, hhead, hws, hb1, hb2⟩ := renderJson_head ind v
  refine ⟨c0, cs0 ++ (t ++ X), ?_, hb1, hb2⟩
  rw [ht]
  rw [show (indentChars ind ++ (renderJson ind v ++ t)) ++ X =
    indentChars ind ++ ((renderJson ind v ++ t) ++ X) by simp]
  rw [skipWs_ws_append _ _ (indentChars_ws ind), hhead]
  rw [show ((c0 :: cs0) ++ t) ++ X = c0 :: (cs0 ++ (t ++ X)) by simp]
  exact skipWs_cons_not _ _ hws

theorem renderObjItems_decomp (ind : Nat) (k : String) (v : Json)
    (kvs : List (String × Json)) :
    ∃ t, renderObjItems ind k v kvs = indentChars ind ++ ('"' :: t) := by
  cases kvs with
  | nil =>
    refine ⟨(k.data.flatMap escapeChar ++ ['"']) ++ ':' :: ' ' :: renderJson ind v, ?_⟩
    rw [renderObjItems_nil, renderString]
    simp
  | cons kv ws =>
    obtain ⟨k2, v2⟩ := kv
    refine ⟨(k.data.flatMap escapeChar ++ ['"']) ++ ':' :: ' ' :: renderJson ind v ++
      (',' :: '\n' :: renderObjItems ind k2 v2 ws), ?_⟩
    rw [renderObjItems_cons, renderString]
    simp

theorem skipWs_objItems_head (ind : Nat) (k : String) (v : Json)
    (kvs : List (String × Json)) (X : List Char) :
    ∃ cs, skipWs (renderObjItems ind k v kvs ++ X) = '"' :: cs := by
  obtain ⟨t, ht⟩ := renderObjItems_decomp ind k v kvs
  refine ⟨t ++ X, ?_⟩
  rw [ht]
  rw [show (indentChars ind ++ ('"' :: t)) ++ X = indentChars ind ++ ('"' :: (t ++ X)) by simp]
  rw [skipWs_ws_append _ _ (indentChars_ws ind)]
  exact skipWs_cons_not _ _ (by decide)

theorem intDecString_head (n : Int) :
    ∃ c cs, (intDecString n).data = c :: cs ∧ (c = '-' ∨ c.isDigit = true) := by
  unfold intDecString
  by_cases hn : n < 0
  · rw [if_pos hn]
    exact ⟨'-', natDecChars (-n).toNat, rfl, Or.inl rfl⟩
  · rw [if_neg hn]
    rcases hND : natDecChars n.toNat with _ | ⟨c, cs⟩
    · exact absurd hND (natDecChars_ne_nil _)
    · exact ⟨c, cs, rfl, Or.inr (natDecChars_digits _ c (by rw [hND]; simp))⟩

theorem jsizeO_pos (k : String) (v : Json) (kvs : List (String × Json)) :
    1 ≤ jsizeO ((k, v) :: kvs) := by
  rw [jsizeO]
  omega

theorem parseArrItems_render (v : Json) (vs : List Json)
    (hP : ∀ w ∈ v :: vs, ∀ (ind fuel : Nat) (rest : List Char),
        jsize w < fuel → headNotDigit rest →
        parseValue fuel (renderJson ind w ++ rest) = some (w, rest)) :
    ∀ (ind ind0 fuel : Nat) (pre rest : List Char),
      (∀ c ∈ pre, isJsonWs c = true) → jsizeA (v :: vs) < fuel →
      parseArrItems fuel
          (pre ++ (renderArrItems ind v vs ++ ('\n' :: (indentChars ind0 ++ (']' :: rest))))) =
        some (v :: vs, rest) := by
  induction vs generalizing v with
  | nil =>
    intro ind ind0 fuel pre rest hpre hfuel
    cases fuel with
    | zero =>
      rw [jsizeA] at hfuel
      omega
    | succ f =>
      have hvf : jsize v < f := by
        rw [jsizeA, jsizeA] at hfuel
        omega
      rw [parseArrItems, renderArrItems_nil]
      have h4 : parseValue f
          (pre ++ ((indentChars ind ++ renderJson ind v) ++
            ('\n' :: (indentChars ind0 ++ (']' :: rest))))) =
          some (v, '\n' :: (indentChars ind0 ++ (']' :: rest))) := by
        rw [show pre ++ ((indentChars ind ++ renderJson ind v) ++
              ('\n' :: (indentChars ind0 ++ (']' :: rest)))) =
            pre ++ (indentChars ind ++
              (renderJson ind v ++ ('\n' :: (indentChars ind0 ++ (']' :: rest))))) by simp]
        rw [parseValue_ws f pre _ hpre, parseValue_ws f (indentChars ind) _ (indentChars_ws ind)]
        exact hP v (by simp) ind f _ hvf (headNotDigit_cons _ (by decide))
      have hws : ∀ c ∈ '\n' :: indentChars ind0, isJsonWs c = true := by
        intro c hc
        rcases List.mem_cons.mp hc with h | h
        · rw [h]; decide
        · exact indentChars_ws ind0 c h
      have hsk : skipWs ('\n' :: (indentChars ind0 ++ (']' :: rest))) = ']' :: rest := by
        rw [← List.cons_append, skipWs_ws_append _ _ hws, skipWs_cons_not _ _ (by decide)]
      rw [h4]
      simp [hsk]
  | cons w ws ih =>
    intro ind ind0 fuel pre rest hpre hfuel
    cases fuel with
    | zero =>
      rw [jsizeA] at hfuel
      omega
    | succ f =>
      have hwpos := jsizeA_pos w ws
      have hvpos := jsize_pos v
      have hvf : jsize v < f := by
        rw [jsizeA] at hfuel
        omega
      have hwf : jsizeA (w :: ws) < f := by
        rw [jsizeA] at hfuel
        omega
      rw [parseArrItems, renderArrItems_cons]
      have h4 : parseValue f
          (pre ++ ((indentChars ind ++ renderJson ind v ++
              (',' :: '\n' :: renderArrItems ind w ws)) ++
            ('\n' :: (indentChars ind0 ++ (']' :: rest))))) =
          some (v, ',' :: ('\n' :: (renderArrItems ind w ws ++
            ('\n' :: (indentChars ind0 ++ (']' :: rest)))))) := by
        rw [show pre ++ ((indentChars ind ++ renderJson ind v ++
              (',' :: '\n' :: renderArrItems ind w ws)) ++
              ('\n' :: (indentChars ind0 ++ (']' :: rest)))) =
            pre ++ (indentChars ind ++ (renderJson ind v ++
              (',' :: ('\n' :: (renderArrItems ind w ws ++
                ('\n' :: (indentChars ind0 ++ (']' :: rest)))))))) by simp]
        rw [parseValue_ws f pre _ hpre, parseValue_ws f (indentChars ind) _ (indentChars_ws ind)]
        exact hP v (by simp) ind f _ hvf (headNotDigit_cons _ (by decide))
      have hsk : skipWs (',' :: ('\n' :: (renderArrItems ind w ws ++
          ('\n' :: (indentChars ind0 ++ (']' :: rest)))))) =
          ',' :: ('\n' :: (renderArrItems ind w ws ++
            ('\n' :: (indentChars ind0 ++ (']' :: rest))))) :=
        skipWs_cons_not _ _ (by decide)
      have hIH : parseArrItems f
          ('\n' :: (renderArrItems ind w ws ++ ('\n' :: (indentChars ind0 ++ (']' :: rest))))) =
          some (w :: ws, rest) := by
        have := ih w (fun u hu => hP u (by simp [List.mem_cons] at hu ⊢; tauto))
          ind ind0 f ['\n'] rest (by intro c hc; simp at hc; rw [hc]; decide) hwf
        rw [List.singleton_append] at this
        exact this
      rw [h4]
      simp [hsk, hIH]

theorem parseObjItems_render (k : String) (v : Json) (kvs : List (String × Json))
    (hP : ∀ kv ∈ (k, v) :: kvs, ∀ (ind fuel : Nat) (rest : List Char),
        jsize kv.2 < fuel → headNotDigit rest →
        parseValue fuel (renderJson ind kv.2 ++ rest) = some (kv.2, rest)) :
    ∀ (ind ind0 fuel : Nat) (pre rest : List Char),
      (∀ c ∈ pre, isJsonWs c = true) → jsizeO ((k, v) :: kvs) < fuel →
      parseObjItems fuel
          (pre ++ (renderObjItems ind k v kvs ++ ('\n' :: (indentChars ind0 ++ ('}' :: rest))))) =
        some ((k, v) :: kvs, rest) := by
  induction kvs generalizing k v with
  | nil =>
    intro ind ind0 fuel pre rest hpre hfuel
    cases fuel with
    | zero =>
      simp only [jsizeO] at hfuel
      omega
    | succ f =>
      have hvf : jsize v < f := by
        simp only [jsizeO] at hfuel
        omega
      rw [parseObjItems, renderObjItems_nil]
      have h0 : skipWs (pre ++ ((indentChars ind ++ renderString k ++
            ':' :: ' ' :: renderJson ind v) ++
          ('\n' :: (indentChars ind0 ++ ('}' :: rest))))) =
          '"' :: (k.data.flatMap escapeChar ++ ('"' :: (':' :: (' ' :: (renderJson ind v ++
            ('\n' :: (indentChars ind0 ++ ('}' :: rest)))))))) := by
        rw [show pre ++ ((indentChars ind ++ renderString k ++
              ':' :: ' ' :: renderJson ind v) ++
              ('\n' :: (indentChars ind0 ++ ('}' :: rest)))) =
            pre ++ (indentChars ind ++
              ('"' :: (k.data.flatMap escapeChar ++ ('"' :: (':' :: (' ' :: (renderJson ind v ++
                ('\n' :: (indentChars ind0 ++ ('}' :: rest)))))))))) by simp [renderString]]
        rw [skipWs_ws_append _ _ hpre, skipWs_ws_append _ _ (indentChars_ws ind)]
        exact skipWs_cons_not _ _ (by decide)
      have h2 := parseStringChars_escape k.data
        (':' :: (' ' :: (renderJson ind v ++ ('\n' :: (indentChars ind0 ++ ('}' :: rest))))))
      have h3 : skipWs (':' :: (' ' :: (renderJson ind v ++
          ('\n' :: (indentChars ind0 ++ ('}' :: rest)))))) =
          ':' :: (' ' :: (renderJson ind v ++ ('\n' :: (indentChars ind0 ++ ('}' :: rest))))) :=
        skipWs_cons_not _ _ (by decide)
      have h4 : parseValue f (' ' :: (renderJson ind v ++
          ('\n' :: (indentChars ind0 ++ ('}' :: rest))))) =
          some (v, '\n' :: (indentChars ind0 ++ ('}' :: rest))) := by
        rw [← List.singleton_append,
          parseValue_ws f [' '] _ (by intro c hc; simp at hc; rw [hc]; decide)]
        exact hP (k, v) (by simp) ind f _ hvf (headNotDigit_cons _ (by decide))
      have hws : ∀ c ∈ '\n' :: indentChars ind0, isJsonWs c = true := by
        intro c hc
        rcases List.mem_cons.mp hc with h | h
        · rw [h]; decide
        · exact indentChars_ws ind0 c h
      have h5 : skipWs ('\n' :: (indentChars ind0 ++ ('}' :: rest))) = '}' :: rest := by
        rw [← List.cons_append, skipWs_ws_append _ _ hws, skipWs_cons_not _ _ (by decide)]
      rw [h0]
      simp [h2, h3, h4, h5]
  | cons kv2 ws ih =>
    obtain ⟨k2, v2⟩ := kv2
    intro ind ind0 fuel pre rest hpre hfuel
    cases fuel with
    | zero =>
      simp only [jsizeO] at hfuel
      omega
    | succ f =>
      have hv2pos := jsize_pos v2
      have hvf : jsize v < f := by
        simp only [jsizeO] at hfuel
        omega
      have hwf : jsizeO ((k2, v2) :: ws) < f := by
        simp only [jsizeO] at hfuel ⊢
        omega
      rw [parseObjItems, renderObjItems_cons]
      have h0 : skipWs (pre ++ ((indentChars ind ++ renderString k ++
            ':' :: ' ' :: renderJson ind v ++ (',' :: '\n' :: renderObjItems ind k2 v2 ws)) ++
          ('\n' :: (indentChars ind0 ++ ('}' :: rest))))) =
          '"' :: (k.data.flatMap escapeChar ++ ('"' :: (':' :: (' ' :: (renderJson ind v ++
            (',' :: ('\n' :: (renderObjItems ind k2 v2 ws ++
              ('\n' :: (indentChars ind0 ++ ('}' :: rest))))))))))) := by
        rw [show pre ++ ((indentChars ind ++ renderString k ++
              ':' :: ' ' :: renderJson ind v ++ (',' :: '\n' :: renderObjItems ind k2 v2 ws)) ++
              ('\n' :: (indentChars ind0 ++ ('}' :: rest)))) =
            pre ++ (indentChars ind ++
              ('"' :: (k.data.flatMap escapeChar ++ ('"' :: (':' :: (' ' :: (renderJson ind v ++
                (',' :: ('\n' :: (renderObjItems ind k2 v2 ws ++
                  ('\n' :: (indentChars ind0 ++ ('}' :: rest))))))))))))) by simp [renderString]]
        rw [skipWs_ws_append _ _ hpre, skipWs_ws_append _ _ (indentChars_ws ind)]
        exact skipWs_cons_not _ _ (by decide)
      have h2 := parseStringChars_escape k.data
        (':' :: (' ' :: (renderJson ind v ++ (',' :: ('\n' :: (renderObjItems ind k2 v2 ws ++
          ('\n' :: (indentChars ind0 ++ ('}' :: rest)))))))))
      have h3 : skipWs (':' :: (' ' :: (renderJson ind v ++
          (',' :: ('\n' :: (renderObjItems ind k2 v2 ws ++
            ('\n' :: (indentChars ind0 ++ ('}' :: rest))))))))) =
          ':' :: (' ' :: (renderJson ind v ++ (',' :: ('\n' :: (renderObjItems ind k2 v2 ws ++
            ('\n' :: (indentChars ind0 ++ ('}' :: rest)))))))) :=
        skipWs_cons_not _ _ (by decide)
      have h4 : parseValue f (' ' :: (renderJson ind v ++
          (',' :: ('\n' :: (renderObjItems ind k2 v2 ws ++
            ('\n' :: (indentChars ind0 ++ ('}' :: rest)))))))) =
          some (v, ',' :: ('\n' :: (renderObjItems ind k2 v2 ws ++
            ('\n' :: (indentChars ind0 ++ ('}' :: rest)))))) := by
        rw [← List.singleton_append,
          parseValue_ws f [' '] _ (by intro c hc; simp at hc; rw [hc]; decide)]
        exact hP (k, v) (by simp) ind f _ hvf (headNotDigit_cons _ (by decide))
      have h5 : skipWs (',' :: ('\n' :: (renderObjItems ind k2 v2 ws ++
          ('\n' :: (indentChars ind0 ++ ('}' :: rest)))))) =
          ',' :: ('\n' :: (renderObjItems ind k2 v2 ws ++
            ('\n' :: (indentChars ind0 ++ ('}' :: rest))))) :=
        skipWs_cons_not _ _ (by decide)
      have hIH : parseObjItems f
          ('\n' :: (renderObjItems ind k2 v2 ws ++
            ('\n' :: (indentChars ind0 ++ ('}' :: rest))))) =
          some ((k2, v2) :: ws, rest) := by
        have := ih k2 v2 (fun u hu => hP u (by simp [List.mem_cons] at hu ⊢; tauto))
          ind ind0 f ['\n'] rest (by intro c hc; simp at hc; rw [hc]; decide) hwf
        rw [List.singleton_append] at this
        exact this
      rw [h0]
      simp [h2, h3, h4, h5, hIH]

theorem parseValue_render :
    ∀ (v : Json) (ind fuel : Nat) (rest : List Char), jsize v < fuel → headNotDigit rest →
      parseValue fuel (renderJson ind v ++ rest) = some (v, rest) := by
  intro v
  induction v using jsonInd with
  | hs s =>
    intro ind fuel rest hf hrest
    cases fuel with
    | zero =>
      rw [jsize] at hf
      omega
    | succ f =>
      rw [parseValue]
      have hrj : renderJson ind (Json.str s) ++ rest =
          '"' :: (s.data.flatMap escapeChar ++ ('"' :: rest)) := by
        rw [renderJson, renderString]
        simp
      rw [hrj, skipWs_cons_not _ _ (by decide)]
      simp [parseStringChars_escape]
  | hn n =>
    intro ind fuel rest hf hrest
    cases fuel with
    | zero =>
      rw [jsize] at hf
      omega
    | succ f =>
      rw [parseValue]
      obtain ⟨c0, cs0, hd, hc0⟩ := intDecString_head n
      have hc0w : isJsonWs c0 = false := by
        rcases hc0 with h | h
        · rw [h]; decide
        · exact digit_not_jsonWs h
      have hq : c0 ≠ '"' := by
        rcases hc0 with h | h
        · rw [h]; decide
        · exact digit_ne h (by decide)
      have hb : c0 ≠ '[' := by
        rcases hc0 with h | h
        · rw [h]; decide
        · exact digit_ne h (by decide)
      have hbr : c0 ≠ '{' := by
        rcases hc0 with h | h
        · rw [h]; decide
        · exact digit_ne h (by decide)
      have hrj : renderJson ind (Json.num n) ++ rest = c0 :: (cs0 ++ rest) := by
        rw [renderJson, hd, List.cons_append]
      have hpn : parseNum (c0 :: (cs0 ++ rest)) = some (n, rest) := by
        rw [← List.cons_append, ← hd]
        exact parseNum_intDecString n rest hrest
      rw [hrj, skipWs_cons_not _ _ hc0w]
      simp [hq, hb, hbr, hpn]
  | ha vs hIH =>
    intro ind fuel rest hf hrest
    cases fuel with
    | zero =>
      rw [jsize] at hf
      omega
    | succ f =>
      rw [parseValue]
      cases vs with
      | nil =>
        have hrj : renderJson ind (Json.arr []) ++ rest = '[' :: (']' :: rest) := by
          rw [renderJson]
          rfl
        have h2 : skipWs (']' :: rest) = ']' :: rest := skipWs_cons_not _ _ (by decide)
        rw [hrj, skipWs_cons_not _ _ (by decide)]
        simp [h2]
      | cons v vs2 =>
        have hrj : renderJson ind (Json.arr (v :: vs2)) ++ rest =
            '[' :: ('\n' :: (renderArrItems (ind + 2) v vs2 ++
              ('\n' :: (indentChars ind ++ (']' :: rest))))) := by
          rw [renderJson]
          simp
        obtain ⟨c0, cs0, hsk0, hc0b, _⟩ := skipWs_arrItems_head (ind + 2) v vs2
          ('\n' :: (indentChars ind ++ (']' :: rest)))
        have hskR : skipWs ('\n' :: (renderArrItems (ind + 2) v vs2 ++
            ('\n' :: (indentChars ind ++ (']' :: rest))))) = c0 :: cs0 := by
          rw [← List.singleton_append,
            skipWs_ws_append _ _ (by intro c hc; simp at hc; rw [hc]; decide)]
          exact hsk0
        have hAI : parseArrItems f
            ('\n' :: (renderArrItems (ind + 2) v vs2 ++
              ('\n' :: (indentChars ind ++ (']' :: rest))))) =
            some (v :: vs2, rest) := by
          have hfu : jsizeA (v :: vs2) < f := by
            rw [jsize] at hf
            omega
          have := parseArrItems_render v vs2 hIH (ind + 2) ind f ['\n'] rest
            (by intro c hc; simp at hc; rw [hc]; decide) hfu
          rw [List.singleton_append] at this
          exact this
        rw [hrj, skipWs_cons_not _ _ (by decide)]
        simp [hskR, hc0b, hAI]
  | ho kvs hIH =>
    intro ind fuel rest hf hrest
    cases fuel with
    | zero =>
      rw [jsize] at hf
      omega
    | succ f =>
      rw [parseValue]
      cases kvs with
      | nil =>
        have hrj : renderJson ind (Json.obj []) ++ rest = '{' :: ('}' :: rest) := by
          rw [renderJson]
          rfl
        have h2 : skipWs ('}' :: rest) = '}' :: rest := skipWs_cons_not _ _ (by decide)
        rw [hrj, skipWs_cons_not _ _ (by decide)]
        simp [h2]
      | cons kv kvs2 =>
        obtain ⟨k, v⟩ := kv
        have hrj : renderJson ind (Json.obj ((k, v) :: kvs2)) ++ rest =
            '{' :: ('\n' :: (renderObjItems (ind + 2) k v kvs2 ++
              ('\n' :: (indentChars ind ++ ('}' :: rest))))) := by
          rw [renderJson]
          simp
        obtain ⟨cs0, hsk0⟩ := skipWs_objItems_head (ind + 2) k v kvs2
          ('\n' :: (indentChars ind ++ ('}' :: rest)))
        have hskR : skipWs ('\n' :: (renderObjItems (ind + 2) k v kvs2 ++
            ('\n' :: (indentChars ind ++ ('}' :: rest))))) = '"' :: cs0 := by
          rw [← List.singleton_append,
            skipWs_ws_append _ _ (by intro c hc; simp at hc; rw [hc]; decide)]
          exact hsk0
        have hOI : parseObjItems f
            ('\n' :: (renderObjItems (ind + 2) k v kvs2 ++
              ('\n' :: (indentChars ind ++ ('}' :: rest))))) =
            some ((k, v) :: kvs2, rest) := by
          have hfu : jsizeO ((k, v) :: kvs2) < f := by
            rw [jsize] at hf
            omega
          have := parseObjItems_render k v kvs2 hIH (ind + 2) ind f ['\n'] rest
            (by intro c hc; simp at hc; rw [hc]; decide) hfu
          rw [List.singleton_append] at this
          exact this
        rw [hrj, skipWs_cons_not _ _ (by decide)]
        simp [hskR, hOI]

theorem jsizeA_le_len (ind : Nat) (v : Json) (vs : List Json)
    (hP : ∀ w ∈ v :: vs, ∀ i, jsize w ≤ (renderJson i w).length) :
    jsizeA (v :: vs) ≤ 1 + (renderArrItems ind v vs).length := by
  induction vs generalizing v with
  | nil =>
    have h1 := hP v (by simp) ind
    rw [jsizeA, jsizeA, renderArrItems_nil]
    simp only [List.length_append]
    omega
  | cons w ws ih =>
    have h1 := hP v (by simp) ind
    have h2 := ih w (fun u hu => hP u (by simp [List.mem_cons] at hu ⊢; tauto))
    rw [jsizeA, renderArrItems_cons]
    simp only [List.length_append, List.length_cons]
    omega

theorem jsizeO_le_len (ind : Nat) (k : String) (v : Json) (kvs : List (String × Json))
    (hP : ∀ kv ∈ (k, v) :: kvs, ∀ i, jsize kv.2 ≤ (renderJson i kv.2).length) :
    jsizeO ((k, v) :: kvs) ≤ 1 + (renderObjItems ind k v kvs).length := by
  induction kvs generalizing k v with
  | nil =>
    have h1 := hP (k, v) (by simp) ind
    simp only at h1
    rw [jsizeO, jsizeO, renderObjItems_nil]
    simp only [List.length_append, List.length_cons]
    omega
  | cons kv2 ws ih =>
    obtain ⟨k2, v2⟩ := kv2
    have h1 := hP (k, v) (by simp) ind
    simp only at h1
    have h2 := ih k2 v2 (fun u hu => hP u (by simp [List.mem_cons] at hu ⊢; tauto))
    rw [jsizeO, renderObjItems_cons]
    simp only [List.length_append, List.length_cons]
    omega

theorem jsize_le_len : ∀ (v : Json) (ind : Nat), jsize v ≤ (renderJson ind v).length := by
  intro v
  induction v using jsonInd with
  | hs s =>
    intro ind
    rw [jsize, renderJson, renderString]
    simp only [List.length_cons, List.length_append]
    omega
  | hn n =>
    intro ind
    obtain ⟨c, cs, hd, _⟩ := intDecString_head n
    rw [jsize, renderJson, hd]
    simp only [List.length_cons]
    omega
  | ha vs hIH =>
    intro ind
    cases vs with
    | nil =>
      rw [jsize, jsizeA, renderJson]
      decide
    | cons v vs2 =>
      have h1 := jsizeA_le_len (ind + 2) v vs2 hIH
      rw [jsize, renderJson]
      simp only [List.length_append, List.length_cons, List.cons_append]
      omega
  | ho kvs hIH =>
    intro ind
    cases kvs with
    | nil =>
      rw [jsize, jsizeO, renderJson]
      decide
    | cons kv kvs2 =>
      obtain ⟨k, v⟩ := kv
      have h1 := jsizeO_le_len (ind + 2) k v kvs2 hIH
      rw [jsize, renderJson]
      simp only [List.length_append, List.length_cons, List.cons_append]
      omega

theorem parseJson_render (v : Json) : parseJson (renderJson 0 v) = some v := by
  unfold parseJson
  have h1 : parseValue ((renderJson 0 v).length + 1) (renderJson 0 v) = some (v, []) := by
    have h2 := parseValue_render v 0 ((renderJson 0 v).length + 1) []
      (by have := jsize_le_len v 0; omega) headNotDigit_nil
    rw [List.append_nil] at h2
    exact h2
  rw [h1]
  rfl

theorem decodeStrList_map (l : List String) : decodeStrList (l.map Json.str) = some l := by
  induction l with
  | nil => rfl
  | cons s rest ih => simp [decodeStrList, ih]

theorem decodeProp_encodeProp (p : PropDesc) : decodeProp (encodeProp p) = some p := rfl

theorem mapM_loop_decodeProp (ps acc : List PropDesc) :
    List.mapM.loop decodeProp (ps.map encodeProp) acc = some (acc.reverse ++ ps) := by
  induction ps generalizing acc with
  | nil => simp [List.mapM.loop]
  | cons p rest ih => simp [List.mapM.loop, decodeProp_encodeProp, ih]

theorem mapM_decodeProp (ps : List PropDesc) :
    (ps.map encodeProp).mapM decodeProp = some ps := by
  show List.mapM.loop decodeProp (ps.map encodeProp) [] = some ps
  rw [mapM_loop_decodeProp]
  rfl

theorem decodeRule_encodeRule (r : Rule) : decodeRule (encodeRule r) = some r := by
  obtain ⟨n, cat, catName, sinceV, msg, rc, url, desc, prio, exs, props, maxV, minV,
    tierV, cc⟩ := r
  rcases props with _ | ps <;> rcases maxV with _ | mx <;> rcases minV with _ | mn <;>
    rcases tierV with _ | tv <;> rcases cc with _ | c2 <;>
    first
    | (rcases tv with tn | ts <;>
        simp [decodeRule, encodeRule, objGet, asStr, asNum, decodeOptStr, encodeTier,
          decodeStrList_map, mapM_loop_decodeProp, Option.bind])
    | simp [decodeRule, encodeRule, objGet, asStr, asNum, decodeOptStr,
        decodeStrList_map, mapM_loop_decodeProp, Option.bind]

theorem mapM_loop_decodeRule (rules acc : List Rule) :
    List.mapM.loop decodeRule (rules.map encodeRule) acc = some (acc.reverse ++ rules) := by
  induction rules generalizing acc with
  | nil => simp [List.mapM.loop]
  | cons r rest ih => simp [List.mapM.loop, decodeRule_encodeRule, ih]

theorem decodeRules_encodeRules (rules : List Rule) :
    decodeRules (encodeRules rules) = some rules := by
  show List.mapM.loop decodeRule (rules.map encodeRule) [] = some rules
  rw [mapM_loop_decodeRule]
  rfl

theorem encodeRules_render_head (rules : List Rule) :
    ∃ bs, renderJson 0 (encodeRules rules) = '[' :: bs := by
  rcases rules with _ | ⟨r, rs⟩
  · exact ⟨[']'], by rw [encodeRules, List.map_nil, renderJson]⟩
  · refine ⟨'\n' :: renderArrItems 2 (encodeRule r) (rs.map encodeRule) ++
      '\n' :: indentChars 0 ++ [']'], ?_⟩
    rw [encodeRules, List.map_cons, renderJson]
    rfl

theorem stripModuleText_serialize (rules : List Rule) :
    stripModuleText (serializeCatalogue rules).data = renderJson 0 (encodeRules rules) := by
  obtain ⟨bs, hbs⟩ := encodeRules_render_head rules
  have hdata : (serializeCatalogue rules).data =
      moduleHead ++ ('\n' :: (renderJson 0 (encodeRules rules) ++ [';', '\n'])) := by
    show moduleHead ++ '\n' :: renderJson 0 (encodeRules rules) ++ [';', '\n'] = _
    simp
  unfold stripModuleText
  rw [hdata]
  have hdm : dropModuleHead (moduleHead ++ ('\n' :: (renderJson 0 (encodeRules rules) ++
      [';', '\n']))) = renderJson 0 (encodeRules rules) ++ [';', '\n'] := by
    unfold dropModuleHead
    rw [if_pos (by rw [listStartsWith_iff]; exact ⟨_, rfl⟩), List.drop_left,
      List.dropWhile_cons]
    rw [if_pos (by decide)]
    rw [hbs, List.cons_append, List.dropWhile_cons, if_neg (by decide)]
  rw [hdm]
  unfold dropSemiTail
  rw [hbs]
  have hrev : (('[' :: bs) ++ [';', '\n']).reverse = '\n' :: (';' :: ('[' :: bs).reverse) := by
    simp
  rw [List.cons_append, ← List.cons_append, hrev, List.dropWhile_cons, if_pos (by decide),
    List.dropWhile_cons, if_neg (by decide)]
  simp

theorem catalogue_roundtrip (rules : List Rule) :
    parseCatalogueFile (serializeCatalogue rules) = some rules := by
  unfold parseCatalogueFile
  rw [stripModuleText_serialize, parseJson_render]
  exact decodeRules_encodeRules rules

/-- Claim C4: serializing the in-memory catalogue the way the builder does
(the assignment wrapper around `JSON.stringify(rules, null, 2)`) and then
re-parsing it the way the annotator does (strip the wrapper, `JSON.parse`,
view as records) returns exactly the original record sequence. -/
theorem serialize_reparse_roundtrip (rules : List Rule) :
    parseCatalogueFile (serializeCatalogue rules) = some rules :=
  catalogue_roundtrip rules

theorem annotateOne_name (table : List (String × TierInfo)) (r : Rule) :
    (annotateOne table r).name = r.name := by
  unfold annotateOne
  cases lookupTier table r.name <;> rfl

theorem annotateOne_idem (table : List (String × TierInfo)) (r : Rule) :
    annotateOne table (annotateOne table r) = annotateOne table r := by
  rcases h : lookupTier table r.name with _ | ti
  · have h0 : annotateOne table r = r := by
      simp [annotateOne, h]
    rw [h0]
    exact h0
  · have h1 : annotateOne table r =
        { r with tier := some ti.tier, claude_comment := some ti.claude_comment } := by
      simp [annotateOne, h]
    rw [h1]
    simp [annotateOne, h]

theorem missingFromMap_annotate (table : List (String × TierInfo)) (rules : List Rule) :
    missingFromMap table (rules.map (annotateOne table)) = missingFromMap table rules := by
  unfold missingFromMap
  rw [List.map_map]
  congr 1
  exact List.map_congr_left (fun r _ => annotateOne_name table r)

theorem map_annotateOne_idem (table : List (String × TierInfo)) (rules : List Rule) :
    (rules.map (annotateOne table)).map (annotateOne table) = rules.map (annotateOne table) := by
  rw [List.map_map]
  exact List.map_congr_left (fun r _ => annotateOne_idem table r)

theorem annotateRules_idem (table : List (String × TierInfo)) (rules rules2 : List Rule)
    (h : annotateRules table rules = some rules2) :
    annotateRules table rules2 = some rules2 := by
  unfold annotateRules at h ⊢
  by_cases hm : missingFromMap table rules = []
  · rw [if_pos hm] at h
    injection h with h2
    subst h2
    rw [if_pos (by rw [missingFromMap_annotate, hm]), map_annotateOne_idem]
  · rw [if_neg hm] at h
    exact Option.noConfusion h

/-- Claim C5: the annotator is idempotent — whenever a run succeeds (exit
code 0) and writes `out`, running it again on `out` succeeds and writes the
very same content: `tier`/`claude_comment` are overwritten with the same
values, not appended. -/
theorem annotator_idempotent (table : List (String × TierInfo)) (content out : String)
    (h : runAnnotatorFile table content = (0, out)) :
    runAnnotatorFile table out = (0, out) := by
  unfold runAnnotatorFile at h
  split at h
  · simp at h
  · rename_i rules hp
    split at h
    · simp at h
    · rename_i rules2 ha
      injection h with h1 h2
      subst h2
      unfold runAnnotatorFile
      simp [catalogue_roundtrip, annotateRules_idem table rules rules2 ha]

theorem annotateRules_of_missing_nil (table : List (String × TierInfo)) (rules : List Rule)
    (h : missingFromMap table rules = []) :
    annotateRules table rules = some (rules.map (annotateOne table)) := by
  unfold annotateRules
  rw [if_pos h]

theorem runAnnotatorFile_serialize (table : List (String × TierInfo)) (rules : List Rule)
    (h : missingFromMap table rules = []) :
    runAnnotatorFile table (serializeCatalogue rules) =
      (0, serializeCatalogue (rules.map (annotateOne table))) := by
  unfold runAnnotatorFile
  rw [catalogue_roundtrip]
  show (match annotateRules table rules with
    | none => (1, serializeCatalogue rules)
    | some rules2 => (0, serializeCatalogue rules2)) =
    (0, serializeCatalogue (rules.map (annotateOne table)))
  rw [annotateRules_of_missing_nil table rules h]

/-- Witness for C5: on a concrete catalogue whose single record is covered
by the table, a successful first run's output is reproduced by the second
run. -/
theorem annotator_idempotent_witness :
    runAnnotatorFile sampleTable
        (serializeCatalogue ([sampleRule].map (annotateOne sampleTable))) =
      (0, serializeCatalogue ([sampleRule].map (annotateOne sampleTable))) :=
  annotator_idempotent sampleTable (serializeCatalogue [sampleRule])
    (serializeCatalogue ([sampleRule].map (annotateOne sampleTable)))
    (runAnnotatorFile_serialize sampleTable [sampleRule] (by decide))

/-- Witness for C3: with an empty table, a record name has no entry, the
exit code is 1 and the file content is returned unchanged. -/
theorem annotator_atomic_on_missing_witness :
    runAnnotatorFile [] (serializeCatalogue [sampleRule]) =
      (1, serializeCatalogue [sampleRule]) :=
  annotator_atomic_on_missing [] (serializeCatalogue [sampleRule]) [sampleRule]
    (catalogue_roundtrip [sampleRule]) ⟨sampleRule, by simp, rfl⟩

/-- Witness for C9 at a concrete table and record list. -/
theorem annotator_frame_witness :
    ([sampleRule, sampleRule2].map (annotateOne sampleTable)).length =
        [sampleRule, sampleRule2].length ∧
      ([sampleRule, sampleRule2].map (annotateOne sampleTable)).map frameOf =
        [sampleRule, sampleRule2].map frameOf := by
  apply annotator_frame sampleTable [sampleRule, sampleRule2]
  decide

end PmdRules
